import Mathlib

/-!
Verification of the junos_push configuration tool.

The development shallowly embeds the program's text processing, validation,
diff and orchestration logic.  Strings are modelled as `List Char` (the
character sequence of a Python `str`); documents are newline-joined line
lists, exactly as the source manipulates them.  Device I/O (NETCONF reads,
locks, loads, commits) is modelled by an environment record describing the
outcome each external call would have, and the orchestration functions
record the externally visible calls in an event trace.
-/

/-! ## Python string primitives (character-level) -/

/-- The characters Python's `str.strip` / `str.split` treat as whitespace
(ASCII range; the source only ever feeds ASCII configuration text). -/
def pyIsSpace (c : Char) : Bool :=
  c = ' ' || c = '\t' || c = '\n' || c = '\r' || c = '\x0b' || c = '\x0c'

/-- Python `str.strip()`: drop whitespace from both ends. -/
def pyStrip (s : List Char) : List Char :=
  (((s.dropWhile pyIsSpace).reverse).dropWhile pyIsSpace).reverse

/-- Python `str.lower()` (ASCII case folding suffices for the source's use). -/
def pyLower (s : List Char) : List Char :=
  s.map Char.toLower

/-- Boolean test that `p` is a prefix of `s`; Python `str.startswith`. -/
def hasPre : List Char → List Char → Bool
  | [], _ => true
  | _ :: _, [] => false
  | p :: ps, c :: cs => p = c && hasPre ps cs

/-- Python `text.split('\n')` — splits at every newline, keeping empty pieces. -/
def splitNl : List Char → List (List Char)
  | [] => [[]]
  | c :: cs =>
    let rest := splitNl cs
    if c = '\n' then [] :: rest
    else
      match rest with
      | [] => [[c]]
      | l :: ls => (c :: l) :: ls

/-- Python `'\n'.join(lines)`. -/
def joinNl : List (List Char) → List Char
  | [] => []
  | [l] => l
  | l :: l' :: ls => l ++ '\n' :: joinNl (l' :: ls)

/-- Accumulator loop for `pyWords`: `acc` holds the current word reversed. -/
def pyWordsAux : List Char → List Char → List (List Char)
  | [], acc => if acc = [] then [] else [acc.reverse]
  | c :: cs, acc =>
    if pyIsSpace c then
      if acc = [] then pyWordsAux cs [] else acc.reverse :: pyWordsAux cs []
    else pyWordsAux cs (c :: acc)

/-- Python `str.split()` with no separator: whitespace-run split, no empties. -/
def pyWords (s : List Char) : List (List Char) :=
  pyWordsAux s []

/-- Python `' '.join(words)`. -/
def joinSp : List (List Char) → List Char
  | [] => []
  | [w] => w
  | w :: w' :: ws => w ++ ' ' :: joinSp (w' :: ws)

/-! ## ConfigValidator: cleaning (`_clean_config_content`) -/

/-- One iteration of the cleaning loop in `_clean_config_content`:
strip, drop empty lines and full-line comments, cut text after `#`,
collapse internal whitespace.  `none` means the line is dropped. -/
def cleanLine (rawLine : List Char) : Option (List Char) :=
  let line := pyStrip rawLine
  if line = [] then none
  else if hasPre ['#'] line then none
  else
    let line2 := if '#' ∈ line then pyStrip (line.takeWhile (fun c => c ≠ '#')) else line
    if line2 = [] then none
    else some (joinSp (pyWords line2))

/-- Model of `_clean_config_content`: split into lines, clean each, rejoin. -/
def cleanConfigContent (content : List Char) : List Char :=
  joinNl ((splitNl content).filterMap cleanLine)

/-! ## Rollback conversion (`_convert_set_to_delete`) -/

/-- Outcome of one iteration of the `_convert_set_to_delete` loop. -/
inductive RollLine
  | converted (l : List Char)
  | skipped (l : List Char)
  | dropped
deriving DecidableEq, Repr

/-- One iteration of the `_convert_set_to_delete` loop: strip the line,
silently drop blanks and comments, swap a `set `/`delete ` verb
(detected case-insensitively), and flag every other verb as skipped
(the source logs a warning and emits nothing for it). -/
def rollbackLine (rawLine : List Char) : RollLine :=
  let line := pyStrip rawLine
  if line = [] then .dropped
  else if hasPre ['#'] line then .dropped
  else if hasPre "set ".toList (pyLower line) then
    .converted ("delete ".toList ++ line.drop 4)
  else if hasPre "delete ".toList (pyLower line) then
    .converted ("set ".toList ++ line.drop 7)
  else .skipped line

/-- Model of `_convert_set_to_delete`: apply `rollbackLine` to every line of the
stripped document and join the converted lines. -/
def convertSetToDelete (content : List Char) : List Char :=
  joinNl ((splitNl (pyStrip content)).filterMap fun l =>
    match rollbackLine l with
    | .converted d => some d
    | _ => none)

/-- Applying the rollback conversion twice to a single line
(the composition the involution claim is about). -/
def rollbackTwice (l : List Char) : Option (List Char) :=
  match rollbackLine l with
  | .converted d =>
    match rollbackLine d with
    | .converted d2 => some d2
    | _ => none
  | _ => none

/-! ## Basic lemmas about the string primitives -/

theorem hasPre_iff (p s : List Char) : hasPre p s = true ↔ ∃ t, s = p ++ t := by
  induction p generalizing s with
  | nil => simp [hasPre]
  | cons a as ih =>
    cases s with
    | nil => simp [hasPre]
    | cons c cs =>
      simp only [hasPre, Bool.and_eq_true, decide_eq_true_eq, ih]
      constructor
      · rintro ⟨rfl, t, rfl⟩; exact ⟨t, rfl⟩
      · rintro ⟨t, h⟩
        cases h
        exact ⟨rfl, t, rfl⟩

theorem hasPre_append (p t : List Char) : hasPre p (p ++ t) = true :=
  (hasPre_iff p (p ++ t)).2 ⟨t, rfl⟩

theorem dropWhile_cons_self_iff (p : Char → Bool) (c : Char) (cs : List Char) :
    List.dropWhile p (c :: cs) = c :: cs ↔ p c = false := by
  constructor
  · intro h
    by_contra hc
    have hc' : p c = true := by
      cases hpc : p c
      · exact absurd hpc hc
      · rfl
    rw [List.dropWhile_cons, if_pos hc'] at h
    have : (List.dropWhile p cs).length ≤ cs.length := (List.dropWhile_sublist (l := cs) p).length_le
    rw [h] at this
    simp at this
  · intro h
    rw [List.dropWhile_cons, if_neg (by simp [h])]

theorem dropWhile_fix_append (p : Char → Bool) {a : List Char} (x : List Char)
    (ha : a ≠ []) (h : List.dropWhile p a = a) :
    List.dropWhile p (a ++ x) = a ++ x := by
  cases a with
  | nil => exact absurd rfl ha
  | cons c cs =>
    have hc : p c = false := (dropWhile_cons_self_iff p c cs).1 h
    simpa using (dropWhile_cons_self_iff p c (cs ++ x)).2 hc

theorem dropWhile_fix_of_append_left (p : Char → Bool) {a x : List Char}
    (ha : a ≠ []) (h : List.dropWhile p (a ++ x) = a ++ x) :
    List.dropWhile p a = a := by
  cases a with
  | nil => exact absurd rfl ha
  | cons c cs =>
    have hc : p c = false := by
      have := (dropWhile_cons_self_iff p c (cs ++ x)).1 (by simpa using h)
      exact this
    exact (dropWhile_cons_self_iff p c cs).2 hc

theorem pyStrip_eq_self_iff (l : List Char) :
    pyStrip l = l ↔
      l.dropWhile pyIsSpace = l ∧ l.reverse.dropWhile pyIsSpace = l.reverse := by
  constructor
  · intro h
    have hlen : (pyStrip l).length = l.length := by rw [h]
    have h1 : (l.dropWhile pyIsSpace).length ≤ l.length :=
      (List.dropWhile_sublist (l := l) pyIsSpace).length_le
    have h2 : (((l.dropWhile pyIsSpace).reverse).dropWhile pyIsSpace).length ≤
        (l.dropWhile pyIsSpace).length := by
      have := (List.dropWhile_sublist (l := (l.dropWhile pyIsSpace).reverse)
        pyIsSpace).length_le
      simpa using this
    have hplen : (pyStrip l).length =
        (((l.dropWhile pyIsSpace).reverse).dropWhile pyIsSpace).length := by
      simp [pyStrip]
    have hdlen : (l.dropWhile pyIsSpace).length = l.length := by omega
    have hd : l.dropWhile pyIsSpace = l :=
      (List.dropWhile_sublist (l := l) pyIsSpace).eq_of_length hdlen
    refine ⟨hd, ?_⟩
    have h' : (l.reverse.dropWhile pyIsSpace).reverse = l := by
      simpa [pyStrip, hd] using h
    calc l.reverse.dropWhile pyIsSpace
        = ((l.reverse.dropWhile pyIsSpace).reverse).reverse := by simp
      _ = l.reverse := by rw [h']
  · rintro ⟨h1, h2⟩
    simp [pyStrip, h1, h2]

theorem pyLower_append (a b : List Char) :
    pyLower (a ++ b) = pyLower a ++ pyLower b := by
  simp [pyLower]

/-! ## C1: the rollback conversion -/

theorem rollback_set_case (t : List Char) (hs : pyStrip ("set ".toList ++ t) = "set ".toList ++ t) :
    rollbackLine ("set ".toList ++ t) = RollLine.converted ("delete ".toList ++ t) := by
  have hne : "set ".toList ++ t ≠ [] := by simp
  have hhash : hasPre ['#'] ("set ".toList ++ t) = false := by
    cases hp : hasPre ['#'] ("set ".toList ++ t)
    · rfl
    · rcases (hasPre_iff _ _).1 hp with ⟨u, hu⟩
      have : ('#' : Char) = 's' := by
        have := congrArg (fun l => l.head?) hu
        simpa using this.symm
      simp at this
  have hlow : pyLower ("set ".toList ++ t) = "set ".toList ++ pyLower t := by
    rw [pyLower_append]
    congr 1
  have hset : hasPre "set ".toList (pyLower ("set ".toList ++ t)) = true := by
    rw [hlow]; exact hasPre_append _ _
  have hdrop : ("set ".toList ++ t).drop 4 = t := by
    have : ("set ".toList).length = 4 := by decide
    simpa [this] using List.drop_left "set ".toList t
  simp only [rollbackLine, hs, if_neg hne, hhash, Bool.false_eq_true, if_false, hset, if_true,
    hdrop]

theorem rollback_delete_case (t : List Char)
    (hs : pyStrip ("delete ".toList ++ t) = "delete ".toList ++ t) :
    rollbackLine ("delete ".toList ++ t) = RollLine.converted ("set ".toList ++ t) := by
  have hne : "delete ".toList ++ t ≠ [] := by simp
  have hhash : hasPre ['#'] ("delete ".toList ++ t) = false := by
    cases hp : hasPre ['#'] ("delete ".toList ++ t)
    · rfl
    · rcases (hasPre_iff _ _).1 hp with ⟨u, hu⟩
      have : ('#' : Char) = 'd' := by
        have := congrArg (fun l => l.head?) hu
        simpa using this.symm
      simp at this
  have hlow : pyLower ("delete ".toList ++ t) = "delete ".toList ++ pyLower t := by
    rw [pyLower_append]
    congr 1
  have hnset : hasPre "set ".toList (pyLower ("delete ".toList ++ t)) = false := by
    rw [hlow]
    cases hp : hasPre "set ".toList ("delete ".toList ++ pyLower t)
    · rfl
    · rcases (hasPre_iff _ _).1 hp with ⟨u, hu⟩
      have : ('s' : Char) = 'd' := by
        have := congrArg (fun l => l.head?) hu
        simpa using this
      simp at this
  have hdel : hasPre "delete ".toList (pyLower ("delete ".toList ++ t)) = true := by
    rw [hlow]; exact hasPre_append _ _
  have hdrop : ("delete ".toList ++ t).drop 7 = t := by
    have : ("delete ".toList).length = 7 := by decide
    simpa [this] using List.drop_left "delete ".toList t
  simp only [rollbackLine, hs, if_neg hne, hhash, Bool.false_eq_true, if_false, hnset, hdel,
    if_true, hdrop]

theorem strip_fix_tail_of_append {a t : List Char} (ha : a ≠ [])
    (hsp : pyIsSpace a.reverse.headI = true)
    (hs : pyStrip (a ++ t) = a ++ t) :
    t ≠ [] ∧ t.reverse.dropWhile pyIsSpace = t.reverse := by
  have h2 := ((pyStrip_eq_self_iff _).1 hs).2
  rw [List.reverse_append] at h2
  cases t with
  | nil =>
    simp only [List.reverse_nil, List.nil_append] at h2
    cases hr : a.reverse with
    | nil =>
      have : a = [] := by simpa using congrArg List.reverse hr
      exact absurd this ha
    | cons d ds =>
      rw [hr] at h2 hsp
      have hd := (dropWhile_cons_self_iff pyIsSpace d ds).1 h2
      simp only [List.headI] at hsp
      simp [hsp] at hd
  | cons c cs =>
    have hrne : (c :: cs : List Char).reverse ≠ [] := by simp
    exact ⟨by simp, dropWhile_fix_of_append_left pyIsSpace hrne h2⟩

theorem strip_fix_of_prefix_tail {a t : List Char}
    (hah : pyIsSpace a.headI = false) (hane : a ≠ [])
    (htne : t ≠ []) (htail : t.reverse.dropWhile pyIsSpace = t.reverse) :
    pyStrip (a ++ t) = a ++ t := by
  refine (pyStrip_eq_self_iff _).2 ⟨?_, ?_⟩
  · cases a with
    | nil => simp at hane
    | cons c cs =>
      simp only [List.headI] at hah
      simpa using (dropWhile_cons_self_iff pyIsSpace c (cs ++ t)).2 hah
  · rw [List.reverse_append]
    have hrne : t.reverse ≠ [] := by simp [htne]
    exact dropWhile_fix_append pyIsSpace _ hrne htail

/-- C1: the rollback conversion is the set/delete verb swap on each line.
On a whitespace-trimmed line (the loop strips every line first): a line
beginning with `set ` becomes the same line with verb `delete`, a line
beginning with `delete ` becomes the same line with verb `set`, applying
the conversion twice returns the original line for any such line, and a
line with any other verb is flagged as skipped, unmodified, never
converted. -/
theorem rollback_conversion_involution (l : List Char) (hs : pyStrip l = l) :
    (hasPre "set ".toList l = true →
      rollbackLine l = RollLine.converted ("delete ".toList ++ l.drop 4)) ∧
    (hasPre "delete ".toList l = true →
      rollbackLine l = RollLine.converted ("set ".toList ++ l.drop 7)) ∧
    (hasPre "set ".toList l = true ∨ hasPre "delete ".toList l = true →
      rollbackTwice l = some l) ∧
    (∀ c cs, l = c :: cs → c ≠ '#' →
      hasPre "set ".toList (pyLower l) = false →
      hasPre "delete ".toList (pyLower l) = false →
      rollbackLine l = RollLine.skipped l) := by
  refine ⟨?_, ?_, ?_, ?_⟩
  · intro hp
    rcases (hasPre_iff _ _).1 hp with ⟨t, rfl⟩
    have hdrop : ("set ".toList ++ t).drop 4 = t := by
      have : ("set ".toList).length = 4 := by decide
      simpa [this] using List.drop_left "set ".toList t
    rw [hdrop]
    exact rollback_set_case t hs
  · intro hp
    rcases (hasPre_iff _ _).1 hp with ⟨t, rfl⟩
    have hdrop : ("delete ".toList ++ t).drop 7 = t := by
      have : ("delete ".toList).length = 7 := by decide
      simpa [this] using List.drop_left "delete ".toList t
    rw [hdrop]
    exact rollback_delete_case t hs
  · rintro (hp | hp)
    · rcases (hasPre_iff _ _).1 hp with ⟨t, rfl⟩
      have h1 := rollback_set_case t hs
      have htail := strip_fix_tail_of_append (a := "set ".toList) (by decide) (by decide) hs
      have hs2 : pyStrip ("delete ".toList ++ t) = "delete ".toList ++ t :=
        strip_fix_of_prefix_tail (by decide) (by decide) htail.1 htail.2
      have h2 := rollback_delete_case t hs2
      simp only [rollbackTwice, h1, h2]
    · rcases (hasPre_iff _ _).1 hp with ⟨t, rfl⟩
      have h1 := rollback_delete_case t hs
      have htail := strip_fix_tail_of_append (a := "delete ".toList) (by decide) (by decide) hs
      have hs2 : pyStrip ("set ".toList ++ t) = "set ".toList ++ t :=
        strip_fix_of_prefix_tail (by decide) (by decide) htail.1 htail.2
      have h2 := rollback_set_case t hs2
      simp only [rollbackTwice, h1, h2]
  · intro c cs hl hc hnset hndel
    have hne : l ≠ [] := by simp [hl]
    have hhash : hasPre ['#'] l = false := by
      rw [hl]
      simp only [hasPre, Bool.and_eq_true, Bool.and_eq_false_iff]
      left
      simpa using fun h => hc h.symm
    simp only [rollbackLine, hs, if_neg hne, hhash, Bool.false_eq_true, if_false, hnset, hndel]

/-- Witness for C1 at the spec's Scenario B line. -/
theorem rollback_conversion_involution_witness :
    rollbackLine "set system ntp server 1.1.1.1".toList
        = RollLine.converted "delete system ntp server 1.1.1.1".toList ∧
    rollbackTwice "set system ntp server 1.1.1.1".toList
        = some ("set system ntp server 1.1.1.1".toList) := by
  constructor
  · have h := (rollback_conversion_involution "set system ntp server 1.1.1.1".toList
      (by decide)).1 (by decide)
    rw [h]; decide
  · exact (rollback_conversion_involution "set system ntp server 1.1.1.1".toList
      (by decide)).2.2.1 (Or.inl (by decide))

/-! ## Lemmas for the cleaning pipeline (C7) -/

theorem splitNl_no_newline {y : List Char} (h : '\n' ∉ y) : splitNl y = [y] := by
  induction y with
  | nil => rfl
  | cons c cs ih =>
    have hc : c ≠ '\n' := fun hc => h (by simp [hc])
    have hcs : '\n' ∉ cs := fun hm => h (by simp [hm])
    simp only [splitNl, ih hcs, if_neg hc]

theorem splitNl_append_newline {y : List Char} (t : List Char) (h : '\n' ∉ y) :
    splitNl (y ++ '\n' :: t) = y :: splitNl t := by
  induction y with
  | nil => simp [splitNl]
  | cons c cs ih =>
    have hc : c ≠ '\n' := fun hc => h (by simp [hc])
    have hcs : '\n' ∉ cs := fun hm => h (by simp [hm])
    have hne : splitNl (cs ++ '\n' :: t) = cs :: splitNl t := ih hcs
    simp only [List.cons_append, splitNl, if_neg hc]
    rw [List.append_eq, hne]

theorem splitNl_joinNl {ys : List (List Char)} (hne : ys ≠ [])
    (h : ∀ y ∈ ys, '\n' ∉ y) : splitNl (joinNl ys) = ys := by
  induction ys with
  | nil => exact absurd rfl hne
  | cons y ys ih =>
    cases ys with
    | nil => exact splitNl_no_newline (h y (by simp))
    | cons y' ys' =>
      have h1 : '\n' ∉ y := h y (by simp)
      have h2 : ∀ z ∈ y' :: ys', '\n' ∉ z := fun z hz => h z (by simp [hz])
      simp only [joinNl, splitNl_append_newline _ h1, ih (by simp) h2]

theorem dropWhile_idem (p : Char → Bool) (l : List Char) :
    List.dropWhile p (List.dropWhile p l) = List.dropWhile p l := by
  induction l with
  | nil => rfl
  | cons c cs ih =>
    rw [List.dropWhile_cons]
    by_cases hc : p c = true
    · simpa [hc] using ih
    · have hc' : p c = false := by simpa using hc
      simp [hc', List.dropWhile_cons]

theorem pyStrip_idem (s : List Char) : pyStrip (pyStrip s) = pyStrip s := by
  refine (pyStrip_eq_self_iff _).2 ⟨?_, ?_⟩
  · cases hp : pyStrip s with
    | nil => rfl
    | cons c r =>
      have hpre : ∃ u, s.dropWhile pyIsSpace = (c :: r) ++ u := by
        have hsuf : ((s.dropWhile pyIsSpace).reverse).dropWhile pyIsSpace <:+
            (s.dropWhile pyIsSpace).reverse := List.dropWhile_suffix pyIsSpace
        rcases hsuf with ⟨u, hu⟩
        refine ⟨u.reverse, ?_⟩
        have := congrArg List.reverse hu
        simp only [List.reverse_append, List.reverse_reverse] at this
        rw [← this]
        have : (pyStrip s).reverse =
            ((s.dropWhile pyIsSpace).reverse).dropWhile pyIsSpace := by
          simp [pyStrip]
        rw [← congrArg List.reverse this]
        simp [hp]
      rcases hpre with ⟨u, hu⟩
      have hidem := dropWhile_idem pyIsSpace s
      rw [hu] at hidem
      have hc : pyIsSpace c = false := by
        have := (dropWhile_cons_self_iff pyIsSpace c (r ++ u)).1 (by simpa using hidem)
        exact this
      exact (dropWhile_cons_self_iff pyIsSpace c r).2 hc
  · have : (pyStrip s).reverse = ((s.dropWhile pyIsSpace).reverse).dropWhile pyIsSpace := by
      simp [pyStrip]
    rw [this]
    exact dropWhile_idem pyIsSpace _

theorem pyStrip_head_not_space {s : List Char} {c : Char} {r : List Char}
    (h : pyStrip s = c :: r) : pyIsSpace c = false := by
  have := (pyStrip_eq_self_iff (pyStrip s)).1 (pyStrip_idem s)
  rw [h] at this
  exact (dropWhile_cons_self_iff pyIsSpace c r).1 this.1

theorem mem_pyStrip {s : List Char} {c : Char} (h : c ∈ pyStrip s) : c ∈ s := by
  have h1 : c ∈ ((s.dropWhile pyIsSpace).reverse).dropWhile pyIsSpace := by
    simpa [pyStrip] using h
  have h2 : c ∈ (s.dropWhile pyIsSpace).reverse :=
    (List.dropWhile_sublist (l := (s.dropWhile pyIsSpace).reverse) pyIsSpace).mem h1
  have h3 : c ∈ s.dropWhile pyIsSpace := by simpa using h2
  exact (List.dropWhile_sublist (l := s) pyIsSpace).mem h3

theorem pyWordsAux_ne_nil {acc : List Char} (ha : acc ≠ []) (s : List Char) :
    pyWordsAux s acc ≠ [] := by
  induction s generalizing acc with
  | nil => simp [pyWordsAux, ha]
  | cons c cs ih =>
    simp only [pyWordsAux]
    by_cases hc : pyIsSpace c = true
    · simp [hc, ha]
    · have hc' : pyIsSpace c = false := by simpa using hc
      simp only [hc', Bool.false_eq_true, if_false]
      exact ih (by simp)

theorem pyWordsAux_word_facts (s : List Char) :
    ∀ acc, (∀ c ∈ acc, pyIsSpace c = false) →
      ∀ w ∈ pyWordsAux s acc, w ≠ [] ∧ ∀ c ∈ w, pyIsSpace c = false := by
  induction s with
  | nil =>
    intro acc hacc w hw
    by_cases ha : acc = []
    · simp [pyWordsAux, ha] at hw
    · simp only [pyWordsAux, if_neg ha, List.mem_singleton] at hw
      subst hw
      exact ⟨by simpa using ha, fun c hc => hacc c (by simpa using hc)⟩
  | cons c cs ih =>
    intro acc hacc w hw
    simp only [pyWordsAux] at hw
    by_cases hc : pyIsSpace c = true
    · rw [if_pos hc] at hw
      by_cases ha : acc = []
      · rw [if_pos ha] at hw
        exact ih [] (by simp) w hw
      · rw [if_neg ha] at hw
        rcases List.mem_cons.1 hw with hw | hw
        · subst hw
          exact ⟨by simpa using ha, fun d hd => hacc d (by simpa using hd)⟩
        · exact ih [] (by simp) w hw
    · have hc' : pyIsSpace c = false := by simpa using hc
      rw [if_neg (by simp [hc'])] at hw
      refine ih (c :: acc) ?_ w hw
      intro d hd
      rcases List.mem_cons.1 hd with hd | hd
      · subst hd; exact hc'
      · exact hacc d hd

theorem pyWords_word_facts {s w : List Char} (hw : w ∈ pyWords s) :
    w ≠ [] ∧ ∀ c ∈ w, pyIsSpace c = false :=
  pyWordsAux_word_facts s [] (by simp) w hw

theorem pyWordsAux_mem_subset (s : List Char) :
    ∀ acc w c, w ∈ pyWordsAux s acc → c ∈ w → c ∈ s ∨ c ∈ acc := by
  induction s with
  | nil =>
    intro acc w c hw hc
    by_cases ha : acc = []
    · simp [pyWordsAux, ha] at hw
    · simp only [pyWordsAux, if_neg ha, List.mem_singleton] at hw
      subst hw
      exact Or.inr (by simpa using hc)
  | cons a cs ih =>
    intro acc w c hw hc
    simp only [pyWordsAux] at hw
    by_cases hsp : pyIsSpace a = true
    · rw [if_pos hsp] at hw
      by_cases ha : acc = []
      · rw [if_pos ha] at hw
        rcases ih [] w c hw hc with h | h
        · exact Or.inl (by simp [h])
        · simp at h
      · rw [if_neg ha] at hw
        rcases List.mem_cons.1 hw with hw | hw
        · subst hw
          exact Or.inr (by simpa using hc)
        · rcases ih [] w c hw hc with h | h
          · exact Or.inl (by simp [h])
          · simp at h
    · have hsp' : pyIsSpace a = false := by simpa using hsp
      rw [if_neg (by simp [hsp'])] at hw
      rcases ih (a :: acc) w c hw hc with h | h
      · exact Or.inl (by simp [h])
      · rcases List.mem_cons.1 h with h | h
        · exact Or.inl (by simp [h])
        · exact Or.inr h

theorem pyWords_mem_subset {s w : List Char} {c : Char}
    (hw : w ∈ pyWords s) (hc : c ∈ w) : c ∈ s := by
  rcases pyWordsAux_mem_subset s [] w c hw hc with h | h
  · exact h
  · simp at h

theorem joinSp_ne_nil {ws : List (List Char)} (hne : ws ≠ [])
    (h : ∀ w ∈ ws, w ≠ []) : joinSp ws ≠ [] := by
  cases ws with
  | nil => exact absurd rfl hne
  | cons w ws =>
    cases ws with
    | nil => simpa [joinSp] using h w (by simp)
    | cons w' ws' =>
      simp only [joinSp]
      have := h w (by simp)
      cases w with
      | nil => exact absurd rfl this
      | cons c cs => simp

theorem joinSp_cons (w : List Char) (ws : List (List Char)) :
    ∃ r, joinSp (w :: ws) = w ++ r := by
  cases ws with
  | nil => exact ⟨[], by simp [joinSp]⟩
  | cons w' ws' => exact ⟨' ' :: joinSp (w' :: ws'), rfl⟩

theorem mem_joinSp {ws : List (List Char)} {c : Char} (h : c ∈ joinSp ws) :
    (∃ w ∈ ws, c ∈ w) ∨ c = ' ' := by
  induction ws with
  | nil => simp [joinSp] at h
  | cons w ws ih =>
    cases ws with
    | nil =>
      simp only [joinSp] at h
      exact Or.inl ⟨w, by simp, h⟩
    | cons w' ws' =>
      simp only [joinSp, List.mem_append, List.mem_cons] at h
      rcases h with h | h | h
      · exact Or.inl ⟨w, by simp, h⟩
      · exact Or.inr h
      · rcases ih h with ⟨z, hz, hcz⟩ | h
        · exact Or.inl ⟨z, by simp [hz], hcz⟩
        · exact Or.inr h

theorem joinSp_reverse_fix {ws : List (List Char)} (hne : ws ≠ [])
    (h : ∀ w ∈ ws, w ≠ [] ∧ ∀ c ∈ w, pyIsSpace c = false) :
    (joinSp ws).reverse.dropWhile pyIsSpace = (joinSp ws).reverse := by
  induction ws with
  | nil => exact absurd rfl hne
  | cons w ws ih =>
    cases ws with
    | nil =>
      simp only [joinSp]
      rcases h w (by simp) with ⟨hw, hcw⟩
      cases hr : w.reverse with
      | nil =>
        have : w = [] := by simpa using congrArg List.reverse hr
        exact absurd this hw
      | cons d ds =>
        have hd : pyIsSpace d = false := by
          refine hcw d ?_
          have : d ∈ w.reverse := by simp [hr]
          simpa using this
        exact (dropWhile_cons_self_iff pyIsSpace d ds).2 hd
    | cons w' ws' =>
      simp only [joinNl, joinSp, List.reverse_append, List.reverse_cons]
      have hJ := ih (by simp) (fun z hz => h z (by simp [hz]))
      have hJne : joinSp (w' :: ws') ≠ [] :=
        joinSp_ne_nil (by simp) (fun z hz => (h z (by simp [hz])).1)
      have hJrne : (joinSp (w' :: ws')).reverse ≠ [] := by simpa using hJne
      have := dropWhile_fix_append pyIsSpace ([' '] ++ w.reverse) hJrne hJ
      calc List.dropWhile pyIsSpace ((joinSp (w' :: ws')).reverse ++ [' '] ++ w.reverse)
          = List.dropWhile pyIsSpace ((joinSp (w' :: ws')).reverse ++ ([' '] ++ w.reverse)) := by
            rw [List.append_assoc]
        _ = (joinSp (w' :: ws')).reverse ++ ([' '] ++ w.reverse) := this
        _ = (joinSp (w' :: ws')).reverse ++ [' '] ++ w.reverse := by rw [List.append_assoc]

theorem pyWordsAux_skip_nonspace {w : List Char} (hw : ∀ c ∈ w, pyIsSpace c = false) :
    ∀ (r acc : List Char), pyWordsAux (w ++ r) acc = pyWordsAux r (w.reverse ++ acc) := by
  induction w with
  | nil => intro r acc; simp
  | cons c cs ih =>
    intro r acc
    have hc : pyIsSpace c = false := hw c (by simp)
    have hcs : ∀ d ∈ cs, pyIsSpace d = false := fun d hd => hw d (by simp [hd])
    simp only [List.cons_append, pyWordsAux, hc, Bool.false_eq_true, if_false]
    rw [List.append_eq, ih hcs r (c :: acc)]
    congr 1
    simp

theorem pyWords_joinSp {ws : List (List Char)}
    (h : ∀ w ∈ ws, w ≠ [] ∧ ∀ c ∈ w, pyIsSpace c = false) :
    pyWords (joinSp ws) = ws := by
  induction ws with
  | nil => rfl
  | cons w ws ih =>
    cases ws with
    | nil =>
      rcases h w (by simp) with ⟨hw, hcw⟩
      simp only [joinSp, pyWords]
      have : pyWordsAux (w ++ []) [] = pyWordsAux [] (w.reverse ++ []) :=
        pyWordsAux_skip_nonspace hcw [] []
      simp only [List.append_nil] at this
      rw [this]
      simp [pyWordsAux, hw]
    | cons w' ws' =>
      rcases h w (by simp) with ⟨hw, hcw⟩
      simp only [joinSp, pyWords]
      rw [pyWordsAux_skip_nonspace hcw (' ' :: joinSp (w' :: ws')) []]
      have hsp : pyIsSpace ' ' = true := by decide
      simp only [pyWordsAux, hsp, if_true, List.append_nil]
      have hwr : w.reverse ≠ [] := by simpa using hw
      rw [if_neg hwr]
      have := ih (fun z hz => h z (by simp [hz]))
      simp only [pyWords] at this
      rw [this]
      simp

theorem cleanLine_some_eq {raw y : List Char} (h : cleanLine raw = some y) :
    ∃ line2, line2 ≠ [] ∧ pyStrip line2 = line2 ∧ '#' ∉ line2 ∧
      y = joinSp (pyWords line2) := by
  simp only [cleanLine] at h
  by_cases h0 : pyStrip raw = []
  · rw [if_pos h0] at h; cases h
  · rw [if_neg h0] at h
    by_cases h1 : hasPre ['#'] (pyStrip raw) = true
    · rw [if_pos h1] at h; cases h
    · rw [if_neg h1] at h
      by_cases h2 : '#' ∈ pyStrip raw
      · rw [if_pos h2] at h
        by_cases h3 : pyStrip ((pyStrip raw).takeWhile (fun c => c ≠ '#')) = []
        · rw [if_pos h3] at h; cases h
        · rw [if_neg h3] at h
          refine ⟨pyStrip ((pyStrip raw).takeWhile (fun c => c ≠ '#')), h3,
            pyStrip_idem _, ?_, ?_⟩
          · intro hmem
            have hmem2 := mem_pyStrip hmem
            have := List.mem_takeWhile_imp hmem2
            simp at this
          · injection h with h
            exact h.symm
      · rw [if_neg h2, if_neg h0] at h
        refine ⟨pyStrip raw, h0, pyStrip_idem _, h2, ?_⟩
        injection h with h
        exact h.symm

theorem cleanLine_fixpoint {raw y : List Char} (h : cleanLine raw = some y) :
    cleanLine y = some y ∧ '\n' ∉ y := by
  rcases cleanLine_some_eq h with ⟨line2, hne2, hstrip2, hhash2, rfl⟩
  set ws := pyWords line2 with hws
  have hfacts : ∀ w ∈ ws, w ≠ [] ∧ ∀ c ∈ w, pyIsSpace c = false :=
    fun w hw => pyWords_word_facts hw
  have hwsne : ws ≠ [] := by
    cases hl : line2 with
    | nil => exact absurd hl hne2
    | cons c r =>
      have hc : pyIsSpace c = false := pyStrip_head_not_space (hl ▸ hstrip2)
      rw [hws, hl]
      show pyWordsAux (c :: r) [] ≠ []
      simp only [pyWordsAux, hc, Bool.false_eq_true, if_false]
      exact pyWordsAux_ne_nil (by simp) r
  have hmem : ∀ c ∈ joinSp ws, c ≠ '#' ∧ c ≠ '\n' := by
    intro c hc
    rcases mem_joinSp hc with ⟨w, hw, hcw⟩ | rfl
    · constructor
      · intro heq
        subst heq
        exact hhash2 (pyWords_mem_subset hw hcw)
      · intro hex
        subst hex
        have := (hfacts w hw).2 _ hcw
        simp [pyIsSpace] at this
    · constructor <;> decide
  refine ⟨?_, fun hnl => (hmem _ hnl).2 rfl⟩
  have hyne : joinSp ws ≠ [] := joinSp_ne_nil hwsne (fun w hw => (hfacts w hw).1)
  have hystrip : pyStrip (joinSp ws) = joinSp ws := by
    refine (pyStrip_eq_self_iff _).2 ⟨?_, joinSp_reverse_fix hwsne hfacts⟩
    cases hwsl : ws with
    | nil => exact absurd hwsl hwsne
    | cons w rest =>
      rcases joinSp_cons w rest with ⟨r, hr⟩
      rcases hfacts w (by simp [hwsl]) with ⟨hwne, hwch⟩
      cases hwl : w with
      | nil => exact absurd hwl hwne
      | cons d ds =>
        rw [hwl] at hr
        rw [hr]
        have hd : pyIsSpace d = false := hwch d (by simp [hwl])
        simpa using (dropWhile_cons_self_iff pyIsSpace d (ds ++ r)).2 hd
  have hyhash : '#' ∉ joinSp ws := fun hc => (hmem _ hc).1 rfl
  simp only [cleanLine, hystrip, if_neg hyne]
  have hpre : hasPre ['#'] (joinSp ws) = false := by
    cases hyl : joinSp ws with
    | nil => exact absurd hyl hyne
    | cons c r =>
      have hc : c ≠ '#' := by
        have : c ∈ joinSp ws := by simp [hyl]
        exact fun hcc => (hmem c this).1 hcc
      simp only [hasPre, Bool.and_eq_false_iff]
      left
      simpa using fun hcc => hc hcc.symm
  rw [hpre]
  simp only [Bool.false_eq_true, if_false, if_neg hyhash, if_neg hyne]
  rw [hws, pyWords_joinSp hfacts]

theorem filterMap_cleanLine_id {l : List (List Char)}
    (h : ∀ y ∈ l, cleanLine y = some y) : l.filterMap cleanLine = l := by
  induction l with
  | nil => rfl
  | cons y ys ih =>
    rw [List.filterMap_cons, h y (by simp), ih (fun z hz => h z (by simp [hz]))]

/-- C7: the cleaning function of the validator (drop blank lines and
comments, collapse internal whitespace, trim each line) is idempotent on
every input text. -/
theorem clean_config_content_idempotent (x : List Char) :
    cleanConfigContent (cleanConfigContent x) = cleanConfigContent x := by
  have hfix : ∀ y ∈ (splitNl x).filterMap cleanLine, cleanLine y = some y ∧ '\n' ∉ y := by
    intro y hy
    rcases List.mem_filterMap.1 hy with ⟨raw, _, hraw⟩
    exact cleanLine_fixpoint hraw
  show joinNl ((splitNl (cleanConfigContent x)).filterMap cleanLine) = cleanConfigContent x
  by_cases hL : (splitNl x).filterMap cleanLine = []
  · rw [cleanConfigContent, hL]
    show joinNl ((splitNl (joinNl [])).filterMap cleanLine) = joinNl []
    rfl
  · rw [cleanConfigContent, splitNl_joinNl hL (fun y hy => (hfix y hy).2),
      filterMap_cleanLine_id (fun y hy => (hfix y hy).1)]

/-! ## ConfigValidator: syntax validation (`_validate_config_syntax`) -/

/-- The `valid_set_commands` set of `ConfigValidator.__init__`. -/
def validSetCommands : List (List Char) :=
  ["set".toList, "delete".toList, "deactivate".toList, "activate".toList,
    "protect".toList, "unprotect".toList]

/-- The `valid_hierarchies` set of `ConfigValidator.__init__`. -/
def validHierarchies : List (List Char) :=
  ["interfaces".toList, "protocols".toList, "routing-options".toList,
    "policy-options".toList, "firewall".toList, "security".toList, "system".toList,
    "chassis".toList, "forwarding-options".toList, "class-of-service".toList,
    "access".toList, "ethernet-switching-options".toList, "vlans".toList,
    "switch-options".toList, "poe".toList, "virtual-chassis".toList, "snmp".toList,
    "services".toList, "applications".toList, "groups".toList, "apply-groups".toList]

/-- The line-level errors `_validate_config_syntax` / `_validate_set_command_syntax`
can collect. -/
inductive VErr
  | invalidCommand (w : List Char)
  | incompleteSet
  | setTooShort
  | unmatchedQuotes
  | unmatchedBrackets
deriving DecidableEq, Repr

/-- The line-level warnings the validator can collect (non-fatal). -/
inductive VWarn
  | doubleDots
  | trailingWhitespace
  | unknownHierarchy (h : List Char)
deriving DecidableEq, Repr

/-- Python `sub in line` (substring containment). -/
def hasSub (p : List Char) : List Char → Bool
  | [] => hasPre p []
  | c :: cs => hasPre p (c :: cs) || hasSub p cs

/-- Model of `_validate_set_command_syntax`: sequential hard checks (token count,
quote parity, bracket balance), then the soft warnings. -/
def setCommandSyntaxChecks (line : List Char) : List VErr × List VWarn :=
  let parts := pyWords line
  if parts.length < 3 then ([.setTooShort], [])
  else if (line.count '"') % 2 ≠ 0 then ([.unmatchedQuotes], [])
  else if line.count '[' ≠ line.count ']' then ([.unmatchedBrackets], [])
  else
    let w1 : List VWarn := if hasSub "..".toList line then [.doubleDots] else []
    let w2 : List VWarn := if line.getLast? = some ' ' then [.trailingWhitespace] else []
    let w3 : List VWarn :=
      match parts[1]? with
      | some hier =>
        if validHierarchies.any (fun v => hasPre v hier) then [] else [.unknownHierarchy hier]
      | none => []
    ([], w1 ++ w2 ++ w3)

/-- One iteration of the `_validate_config_syntax` loop.  Blank lines are
skipped; the first token must be a valid command; only a `set` line gets
the further `_validate_set_command_syntax` checks.  (A non-blank line
always has a first word, so the `[]` branch of the match is unreachable.) -/
def lineIssues (line : List Char) : List VErr × List VWarn :=
  if pyStrip line = [] then ([], [])
  else
    match pyWords line with
    | [] => ([], [])
    | w :: rest =>
      if pyLower w ∉ validSetCommands then ([.invalidCommand (pyLower w)], [])
      else if pyLower w = "set".toList then
        if (w :: rest).length < 2 then ([.incompleteSet], [])
        else setCommandSyntaxChecks line
      else ([], [])

/-- Model of `_validate_config_syntax`: collect the errors and warnings of every line. -/
def configSyntaxChecks (content : List Char) : List VErr × List VWarn :=
  let issues := (splitNl content).map lineIssues
  ((issues.map Prod.fst).flatten, (issues.map Prod.snd).flatten)

/-- The failure modes of `validate_and_clean_config` (a raised `ValueError`). -/
inductive ValFail
  | emptyFile
  | collectedErrors (errs : List VErr)
deriving DecidableEq, Repr

/-- Model of `validate_and_clean_config` on an already-read file content: reject an
empty file, clean, then validate the syntax; raises on collected errors,
otherwise returns the cleaned document.  (File access is external I/O and is
modelled by passing the file's content.) -/
def validateAndCleanConfig (raw : List Char) : Except ValFail (List Char) :=
  if pyStrip raw = [] then .error .emptyFile
  else
    let cleaned := cleanConfigContent raw
    let errs := (configSyntaxChecks cleaned).1
    if errs ≠ [] then .error (.collectedErrors errs) else .ok cleaned

/-! ## C3: quote/bracket syntax checks -/

theorem pyStrip_nil_all_space {l : List Char} (h : pyStrip l = []) :
    ∀ c ∈ l, pyIsSpace c = true := by
  have h1 : ((l.dropWhile pyIsSpace).reverse).dropWhile pyIsSpace = [] := by
    have := congrArg List.reverse h
    simpa [pyStrip] using this
  have h2 : ∀ c ∈ (l.dropWhile pyIsSpace).reverse, pyIsSpace c = true :=
    List.dropWhile_eq_nil_iff.1 h1
  have h3 : ∀ c ∈ l.dropWhile pyIsSpace, pyIsSpace c = true := by
    intro c hc
    exact h2 c (by simpa using hc)
  intro c hc
  rw [← List.takeWhile_append_dropWhile (p := pyIsSpace) (l := l)] at hc
  rcases List.mem_append.1 hc with hc | hc
  · exact List.mem_takeWhile_imp hc
  · exact h3 c hc

theorem allspace_pyWordsAux {l : List Char} (h : ∀ c ∈ l, pyIsSpace c = true) :
    pyWordsAux l [] = [] := by
  induction l with
  | nil => rfl
  | cons c cs ih =>
    have hc : pyIsSpace c = true := h c (by simp)
    simp only [pyWordsAux, hc, if_true]
    exact ih (fun d hd => h d (by simp [hd]))

theorem pyWords_ne_nil_strip {line : List Char} {w : List Char} {rest : List (List Char)}
    (hwords : pyWords line = w :: rest) : pyStrip line ≠ [] := by
  intro h0
  have := allspace_pyWordsAux (pyStrip_nil_all_space h0)
  rw [show pyWordsAux line [] = pyWords line from rfl, hwords] at this
  cases this

theorem lineIssues_set_line {line w : List Char} {rest : List (List Char)}
    (hwords : pyWords line = w :: rest)
    (hlow : pyLower w = "set".toList)
    (hlen : (w :: rest).length ≥ 3) :
    lineIssues line = setCommandSyntaxChecks line := by
  have hs : pyStrip line ≠ [] := pyWords_ne_nil_strip hwords
  have h1 : ¬(pyLower w ∉ validSetCommands) := by rw [hlow]; decide
  unfold lineIssues
  rw [if_neg hs, hwords]
  show (if pyLower w ∉ validSetCommands then ([VErr.invalidCommand (pyLower w)], ([] : List VWarn))
      else if pyLower w = "set".toList then
        if (w :: rest).length < 2 then ([VErr.incompleteSet], [])
        else setCommandSyntaxChecks line
      else ([], [])) = setCommandSyntaxChecks line
  rw [if_neg h1, if_pos hlow, if_neg (by omega : ¬((w :: rest).length < 2))]

theorem setCommandSyntaxChecks_errors {line : List Char}
    (hlen : (pyWords line).length ≥ 3)
    (hbad : (line.count '"') % 2 = 1 ∨ line.count '[' ≠ line.count ']') :
    (setCommandSyntaxChecks line).1 ≠ [] := by
  unfold setCommandSyntaxChecks
  rw [if_neg (by omega : ¬((pyWords line).length < 3))]
  by_cases hq : (line.count '"') % 2 ≠ 0
  · rw [if_pos hq]; simp
  · rw [if_neg hq]
    have hb : line.count '[' ≠ line.count ']' := by
      rcases hbad with h | h
      · omega
      · exact h
    rw [if_pos hb]
    simp

theorem flatten_ne_nil_of_mem {α β : Type} [DecidableEq β] {l : List α} {f : α → List β}
    {x : α} (hx : x ∈ l) (hf : f x ≠ []) : (l.map f).flatten ≠ [] := by
  intro h
  have := List.flatten_eq_nil_iff.1 h
  exact hf (this (f x) (List.mem_map_of_mem f hx))

/-- C3 (amended): the quote-parity and bracket-balance checks are hard
errors for `set` lines.  For every configuration document and every line
in it whose first token lowercases to `set` and which has at least three
whitespace-separated tokens, an odd number of quote characters or an
unequal count of opening and closing brackets puts an error in the
collected error list, and the validator raises instead of returning a
cleaned document (for any raw input that cleans to this document). -/
theorem set_line_quote_bracket_hard_errors
    (content line w : List Char) (rest : List (List Char))
    (hline : line ∈ splitNl content)
    (hwords : pyWords line = w :: rest)
    (hlow : pyLower w = "set".toList)
    (hlen : (w :: rest).length ≥ 3)
    (hbad : (line.count '"') % 2 = 1 ∨ line.count '[' ≠ line.count ']') :
    (configSyntaxChecks content).1 ≠ [] ∧
    ∀ raw, cleanConfigContent raw = content →
      ∃ e, validateAndCleanConfig raw = .error e := by
  have herr : (lineIssues line).1 ≠ [] := by
    rw [lineIssues_set_line hwords hlow hlen]
    exact setCommandSyntaxChecks_errors (by rw [hwords]; exact hlen) hbad
  have hmain : (configSyntaxChecks content).1 ≠ [] := by
    show ((((splitNl content).map lineIssues).map Prod.fst).flatten) ≠ []
    rw [List.map_map]
    exact flatten_ne_nil_of_mem hline herr
  refine ⟨hmain, ?_⟩
  intro raw hclean
  unfold validateAndCleanConfig
  by_cases h0 : pyStrip raw = []
  · rw [if_pos h0]
    exact ⟨.emptyFile, rfl⟩
  · rw [if_neg h0]
    have : (configSyntaxChecks (cleanConfigContent raw)).1 ≠ [] := by
      rw [hclean]; exact hmain
    simp only [this, ne_eq, not_false_eq_true, if_true, ite_not]
    exact ⟨.collectedErrors (configSyntaxChecks (cleanConfigContent raw)).1, rfl⟩

/-- Witness for the amended C3 on a concrete `set` line with an odd
number of quotes. -/
theorem set_line_quote_bracket_hard_errors_witness :
    (configSyntaxChecks "set interfaces \"x".toList).1 ≠ [] ∧
    ∃ e, validateAndCleanConfig "set interfaces \"x".toList = .error e := by
  have h := set_line_quote_bracket_hard_errors "set interfaces \"x".toList
    "set interfaces \"x".toList "set".toList
    ["interfaces".toList, "\"x".toList]
    (by decide) (by decide) (by decide) (by decide) (by decide)
  exact ⟨h.1, h.2 "set interfaces \"x".toList (by decide)⟩

/-- C3 counterexample: for a line whose verb is not `set` the quote and
bracket checks are not performed at all.  The single-line document
`delete interfaces "x` has an odd number of quote characters, yet the
validator collects no error and returns the cleaned document. -/
theorem quote_check_other_verbs_counterexample :
    (("delete interfaces \"x".toList).count '"') % 2 = 1 ∧
    (configSyntaxChecks "delete interfaces \"x".toList).1 = [] ∧
    validateAndCleanConfig "delete interfaces \"x".toList
      = .ok ("delete interfaces \"x".toList) := by
  refine ⟨by decide, by decide, rfl⟩

/-! ## DiffEngine (`_find_similar_lines_advanced`, `_compare_device_configs`) -/

/-- State of the matching loop in `_find_similar_lines_advanced`:
collected pairs and the two matched-line sets. -/
structure SimState where
  pairs : List (List Char × List Char)
  matched1 : List (List Char)
  matched2 : List (List Char)
deriving DecidableEq, Repr

/-- The inner loop of `_find_similar_lines_advanced`: scan `list2` for the
best not-yet-matched candidate whose similarity ratio with `line1` lies in
`[0.85, 1.0)` and which differs from `line1`; `(best_match, best_ratio)`
starts at `(None, 0.0)` and is replaced whenever a candidate scores
strictly higher. -/
def bestCandidate (ratio : List Char → List Char → ℚ) (line1 : List Char)
    (matched2 : List (List Char)) (list2 : List (List Char)) :
    Option (List Char) × ℚ :=
  list2.foldl
    (fun best line2 =>
      if line2 ∈ matched2 then best
      else if (0.85 : ℚ) ≤ ratio line1 line2 ∧ ratio line1 line2 < 1 ∧ line1 ≠ line2 then
        if ratio line1 line2 > best.2 then (some line2, ratio line1 line2) else best
      else best)
    (none, 0)

/-- One iteration of the outer loop of `_find_similar_lines_advanced`:
record the best match if one was found (Python re-tests truthiness of the
match — `None` or the empty string fail — and `best_ratio >= 0.85`). -/
def simStep (ratio : List Char → List Char → ℚ) (list2 : List (List Char))
    (st : SimState) (line1 : List Char) : SimState :=
  match bestCandidate ratio line1 st.matched2 list2 with
  | (some l2, br) =>
    if l2 ≠ [] ∧ (0.85 : ℚ) ≤ br then
      ⟨st.pairs ++ [(line1, l2)], st.matched1 ++ [line1], st.matched2 ++ [l2]⟩
    else st
  | (none, _) => st

/-- Model of `_find_similar_lines_advanced`: returns
`(similar_pairs, truly_unique_lines1, truly_unique_lines2)`. -/
def findSimilarLinesAdvanced (ratio : List Char → List Char → ℚ)
    (lines1 lines2 : List (List Char)) :
    List (List Char × List Char) × List (List Char) × List (List Char) :=
  let st := lines1.foldl (simStep ratio lines2) ⟨[], [], []⟩
  (st.pairs, lines1.filter (fun l => decide (l ∉ st.matched1)),
    lines2.filter (fun l => decide (l ∉ st.matched2)))

/-- Result of the diff part of `_compare_device_configs`. -/
structure CompareOut where
  common : List (List Char)
  pairs : List (List Char × List Char)
  tu1 : List (List Char)
  tu2 : List (List Char)
deriving DecidableEq, Repr

/-- The diff computation of `_compare_device_configs`: exact common lines by
set intersection first, then the similarity pass on the two remainders. -/
def compareDeviceLines (ratio : List Char → List Char → ℚ)
    (config1 config2 : List (List Char)) : CompareOut :=
  let common := config1.filter (fun l => decide (l ∈ config2))
  let rem1 := config1.filter (fun l => decide (l ∉ common))
  let rem2 := config2.filter (fun l => decide (l ∉ common))
  let r := findSimilarLinesAdvanced ratio rem1 rem2
  ⟨common, r.1, r.2.1, r.2.2⟩

/-! ## Lemmas about the similarity loop (C4, C5) -/

/-- Property of a recorded best candidate. -/
def GoodBest (ratio : List Char → List Char → ℚ) (line1 : List Char)
    (matched2 list2 : List (List Char)) : Option (List Char) × ℚ → Prop
  | (none, _) => True
  | (some l2, br) =>
    br = ratio line1 l2 ∧ l2 ∈ list2 ∧ l2 ∉ matched2 ∧
    (0.85 : ℚ) ≤ ratio line1 l2 ∧ ratio line1 l2 < 1 ∧ line1 ≠ l2

theorem bestCandidate_spec (ratio : List Char → List Char → ℚ) (line1 : List Char)
    (matched2 list2 : List (List Char)) :
    GoodBest ratio line1 matched2 list2 (bestCandidate ratio line1 matched2 list2) := by
  have main : ∀ (l : List (List Char)), (∀ x ∈ l, x ∈ list2) →
      ∀ acc, GoodBest ratio line1 matched2 list2 acc →
        GoodBest ratio line1 matched2 list2 (l.foldl
          (fun best line2 =>
            if line2 ∈ matched2 then best
            else if (0.85 : ℚ) ≤ ratio line1 line2 ∧ ratio line1 line2 < 1 ∧ line1 ≠ line2 then
              if ratio line1 line2 > best.2 then (some line2, ratio line1 line2) else best
            else best) acc) := by
    intro l
    induction l with
    | nil => intro _ acc hacc; exact hacc
    | cons x xs ih =>
      intro hsub acc hacc
      rw [List.foldl_cons]
      refine ih (fun z hz => hsub z (by simp [hz])) _ ?_
      by_cases h1 : x ∈ matched2
      · rw [if_pos h1]; exact hacc
      · rw [if_neg h1]
        by_cases h2 : (0.85 : ℚ) ≤ ratio line1 x ∧ ratio line1 x < 1 ∧ line1 ≠ x
        · rw [if_pos h2]
          by_cases h3 : ratio line1 x > acc.2
          · rw [if_pos h3]
            exact ⟨rfl, hsub x (by simp), h1, h2.1, h2.2.1, h2.2.2⟩
          · rw [if_neg h3]; exact hacc
        · rw [if_neg h2]; exact hacc
  exact main list2 (fun _ h => h) (none, 0) trivial

/-- All pairs the outer loop records satisfy the similarity filter, with
first components drawn from the processed lines and second components
drawn from `list2`. -/
theorem simFold_weak (ratio : List Char → List Char → ℚ) (list2 : List (List Char)) :
    ∀ (l proc : List (List Char)) (st : SimState),
      st.matched1 = st.pairs.map Prod.fst →
      st.matched2 = st.pairs.map Prod.snd →
      (∀ x ∈ st.matched1, x ∈ proc) →
      (∀ x ∈ st.matched2, x ∈ list2) →
      (∀ p ∈ st.pairs, (0.85 : ℚ) ≤ ratio p.1 p.2 ∧ ratio p.1 p.2 < 1 ∧ p.1 ≠ p.2) →
      ((l.foldl (simStep ratio list2) st).matched1
          = (l.foldl (simStep ratio list2) st).pairs.map Prod.fst) ∧
      ((l.foldl (simStep ratio list2) st).matched2
          = (l.foldl (simStep ratio list2) st).pairs.map Prod.snd) ∧
      (∀ x ∈ (l.foldl (simStep ratio list2) st).matched1, x ∈ proc ++ l) ∧
      (∀ x ∈ (l.foldl (simStep ratio list2) st).matched2, x ∈ list2) ∧
      (∀ p ∈ (l.foldl (simStep ratio list2) st).pairs,
        (0.85 : ℚ) ≤ ratio p.1 p.2 ∧ ratio p.1 p.2 < 1 ∧ p.1 ≠ p.2) := by
  intro l
  induction l with
  | nil =>
    intro proc st h1 h2 h3 h4 h5
    rw [List.foldl_nil, List.append_nil]
    exact ⟨h1, h2, h3, h4, h5⟩
  | cons x xs ih =>
    intro proc st h1 h2 h3 h4 h5
    rw [List.foldl_cons]
    have key : ((simStep ratio list2 st x).matched1
          = (simStep ratio list2 st x).pairs.map Prod.fst) ∧
        ((simStep ratio list2 st x).matched2
          = (simStep ratio list2 st x).pairs.map Prod.snd) ∧
        (∀ y ∈ (simStep ratio list2 st x).matched1, y ∈ proc ++ [x]) ∧
        (∀ y ∈ (simStep ratio list2 st x).matched2, y ∈ list2) ∧
        (∀ p ∈ (simStep ratio list2 st x).pairs,
          (0.85 : ℚ) ≤ ratio p.1 p.2 ∧ ratio p.1 p.2 < 1 ∧ p.1 ≠ p.2) := by
      have hspec := bestCandidate_spec ratio x st.matched2 list2
      rcases hbc : bestCandidate ratio x st.matched2 list2 with ⟨bm, br⟩
      rw [hbc] at hspec
      cases bm with
      | none =>
        have hstep : simStep ratio list2 st x = st := by
          simp only [simStep, hbc]
        rw [hstep]
        exact ⟨h1, h2, fun y hy => by simp [h3 y hy], h4, h5⟩
      | some l2 =>
        rcases hspec with ⟨hbr, hl2mem, hl2nm, hge, hlt, hne⟩
        by_cases hc : l2 ≠ [] ∧ (0.85 : ℚ) ≤ br
        · have hstep : simStep ratio list2 st x =
              ⟨st.pairs ++ [(x, l2)], st.matched1 ++ [x], st.matched2 ++ [l2]⟩ := by
            simp only [simStep, hbc, if_pos hc]
          rw [hstep]
          refine ⟨?_, ?_, ?_, ?_, ?_⟩
          · simp [h1]
          · simp [h2]
          · intro y hy
            simp only [List.mem_append, List.mem_singleton] at hy ⊢
            rcases hy with hy | hy
            · exact Or.inl (h3 y hy)
            · exact Or.inr hy
          · intro y hy
            simp only [List.mem_append, List.mem_singleton] at hy
            rcases hy with hy | hy
            · exact h4 y hy
            · subst hy; exact hl2mem
          · intro p hp
            simp only [List.mem_append, List.mem_singleton] at hp
            rcases hp with hp | hp
            · exact h5 p hp
            · subst hp; exact ⟨hge, hlt, hne⟩
        · have hstep : simStep ratio list2 st x = st := by
            simp only [simStep, hbc, if_neg hc]
          rw [hstep]
          exact ⟨h1, h2, fun y hy => by simp [h3 y hy], h4, h5⟩
    have := ih (proc ++ [x]) (simStep ratio list2 st x)
      key.1 key.2.1 key.2.2.1 key.2.2.2.1 key.2.2.2.2
    rcases this with ⟨k1, k2, k3, k4, k5⟩
    refine ⟨k1, k2, ?_, k4, k5⟩
    intro y hy
    have := k3 y hy
    simpa [List.append_assoc] using this

/-- The matched-line sets stay duplicate-free: each first component is a
distinct processed line, each second component was unmatched when chosen. -/
theorem simFold_nodup (ratio : List Char → List Char → ℚ) (list2 : List (List Char)) :
    ∀ (l proc : List (List Char)) (st : SimState),
      (∀ x ∈ st.matched1, x ∈ proc) →
      st.matched1.Nodup → st.matched2.Nodup →
      (∀ x ∈ l, x ∉ proc) → l.Nodup →
      (∀ x ∈ (l.foldl (simStep ratio list2) st).matched1, x ∈ proc ++ l) ∧
      (l.foldl (simStep ratio list2) st).matched1.Nodup ∧
      (l.foldl (simStep ratio list2) st).matched2.Nodup := by
  intro l
  induction l with
  | nil =>
    intro proc st h3 hn1 hn2 _ _
    rw [List.foldl_nil, List.append_nil]
    exact ⟨h3, hn1, hn2⟩
  | cons x xs ih =>
    intro proc st h3 hn1 hn2 hfresh hnd
    rw [List.foldl_cons]
    have hxproc : x ∉ proc := hfresh x (by simp)
    have key : (∀ y ∈ (simStep ratio list2 st x).matched1, y ∈ proc ++ [x]) ∧
        (simStep ratio list2 st x).matched1.Nodup ∧
        (simStep ratio list2 st x).matched2.Nodup := by
      have hspec := bestCandidate_spec ratio x st.matched2 list2
      rcases hbc : bestCandidate ratio x st.matched2 list2 with ⟨bm, br⟩
      rw [hbc] at hspec
      cases bm with
      | none =>
        have hstep : simStep ratio list2 st x = st := by
          simp only [simStep, hbc]
        rw [hstep]
        exact ⟨fun y hy => by simp [h3 y hy], hn1, hn2⟩
      | some l2 =>
        rcases hspec with ⟨hbr, hl2mem, hl2nm, hge, hlt, hne⟩
        by_cases hc : l2 ≠ [] ∧ (0.85 : ℚ) ≤ br
        · have hstep : simStep ratio list2 st x =
              ⟨st.pairs ++ [(x, l2)], st.matched1 ++ [x], st.matched2 ++ [l2]⟩ := by
            simp only [simStep, hbc, if_pos hc]
          rw [hstep]
          refine ⟨?_, ?_, ?_⟩
          · intro y hy
            simp only [List.mem_append, List.mem_singleton] at hy ⊢
            rcases hy with hy | hy
            · exact Or.inl (h3 y hy)
            · exact Or.inr hy
          · have hxm : x ∉ st.matched1 := fun hx => hxproc (h3 x hx)
            simp [List.nodup_append, hn1, hxm]
          · simp [List.nodup_append, hn2, hl2nm]
        · have hstep : simStep ratio list2 st x = st := by
            simp only [simStep, hbc, if_neg hc]
          rw [hstep]
          exact ⟨fun y hy => by simp [h3 y hy], hn1, hn2⟩
    have hrec := ih (proc ++ [x]) (simStep ratio list2 st x) key.1 key.2.1 key.2.2
      (fun y hy => by
        simp only [List.mem_append, List.mem_singleton]
        push_neg
        exact ⟨fun hp => hfresh y (by simp [hy]) hp,
          fun hyx => (by simp [hyx] at hnd; exact hnd.1 (hyx ▸ hy) : False)⟩)
      (List.Nodup.of_cons hnd)
    refine ⟨?_, hrec.2.1, hrec.2.2⟩
    intro y hy
    have := hrec.1 y hy
    simpa [List.append_assoc] using this

theorem length_filter_add_compl {α : Type} (p : α → Bool) (l : List α) :
    (l.filter p).length + (l.filter (fun a => !(p a))).length = l.length := by
  induction l with
  | nil => rfl
  | cons a l ih =>
    by_cases ha : p a = true
    · simp only [List.filter_cons, ha, if_true, Bool.not_true, Bool.false_eq_true, if_false,
        List.length_cons]
      omega
    · have ha' : p a = false := by simpa using ha
      simp only [List.filter_cons, ha', Bool.false_eq_true, if_false, Bool.not_false, if_true,
        List.length_cons]
      omega

theorem length_filter_mem_of_nodup {l m : List (List Char)} (hl : l.Nodup) (hm : m.Nodup)
    (hsub : ∀ x ∈ m, x ∈ l) :
    (l.filter (fun x => decide (x ∈ m))).length = m.length := by
  have hnf : (l.filter (fun x => decide (x ∈ m))).Nodup := hl.filter _
  have hset : (l.filter (fun x => decide (x ∈ m))).toFinset = m.toFinset := by
    ext x
    simp only [List.mem_toFinset, List.mem_filter, decide_eq_true_eq]
    exact ⟨fun h => h.2, fun h => ⟨hsub x h, h⟩⟩
  calc (l.filter (fun x => decide (x ∈ m))).length
      = (l.filter (fun x => decide (x ∈ m))).toFinset.card :=
        (List.toFinset_card_of_nodup hnf).symm
    _ = m.toFinset.card := by rw [hset]
    _ = m.length := List.toFinset_card_of_nodup hm

/-- C4: the similarity pass accepts a pair only when its ratio `r`
satisfies `0.85 ≤ r < 1.0` and the two lines differ; a pair with ratio
exactly `1.0` is never produced, a pair with ratio below `0.85` is never
produced, and within the compare operation the first component of a pair
is never a line of the other device (exact duplicates were removed as
common lines by intersection first). -/
theorem similarity_threshold_boundary (ratio : List Char → List Char → ℚ) :
    (∀ lines1 lines2 : List (List Char),
      ∀ p ∈ (findSimilarLinesAdvanced ratio lines1 lines2).1,
        (0.85 : ℚ) ≤ ratio p.1 p.2 ∧ ratio p.1 p.2 < 1 ∧ p.1 ≠ p.2) ∧
    (∀ A B : List (List Char), ∀ p ∈ (compareDeviceLines ratio A B).pairs,
      ((0.85 : ℚ) ≤ ratio p.1 p.2 ∧ ratio p.1 p.2 < 1 ∧ p.1 ≠ p.2) ∧
      p.1 ∉ B ∧ p.2 ∉ A) := by
  constructor
  · intro lines1 lines2 p hp
    have base := simFold_weak ratio lines2 lines1 [] ⟨[], [], []⟩ rfl rfl
      (by simp) (by simp) (by simp)
    exact base.2.2.2.2 p hp
  · intro A B p hp
    have base := simFold_weak ratio (B.filter (fun l =>
        decide (l ∉ A.filter (fun l' => decide (l' ∈ B)))))
      (A.filter (fun l => decide (l ∉ A.filter (fun l' => decide (l' ∈ B)))))
      [] ⟨[], [], []⟩ rfl rfl (by simp) (by simp) (by simp)
    have hp' : p ∈ ((A.filter (fun l => decide (l ∉ A.filter (fun l' => decide (l' ∈ B))))).foldl
        (simStep ratio (B.filter (fun l =>
          decide (l ∉ A.filter (fun l' => decide (l' ∈ B)))))) ⟨[], [], []⟩).pairs := hp
    refine ⟨base.2.2.2.2 p hp', ?_, ?_⟩
    · have h1 : p.1 ∈ (A.filter (fun l => decide (l ∉ A.filter (fun l' => decide (l' ∈ B))))) := by
        have hm : p.1 ∈ ((A.filter (fun l =>
            decide (l ∉ A.filter (fun l' => decide (l' ∈ B))))).foldl
            (simStep ratio (B.filter (fun l =>
              decide (l ∉ A.filter (fun l' => decide (l' ∈ B)))))) ⟨[], [], []⟩).matched1 := by
          rw [base.1]
          exact List.mem_map_of_mem Prod.fst hp'
        have := base.2.2.1 p.1 hm
        simpa using this
      rcases List.mem_filter.1 h1 with ⟨hA1, hnc⟩
      simp only [decide_eq_true_eq] at hnc
      intro hB1
      exact hnc (List.mem_filter.2 ⟨hA1, by simp [hB1]⟩)
    · have h2 : p.2 ∈ (B.filter (fun l => decide (l ∉ A.filter (fun l' => decide (l' ∈ B))))) := by
        have hm : p.2 ∈ ((A.filter (fun l =>
            decide (l ∉ A.filter (fun l' => decide (l' ∈ B))))).foldl
            (simStep ratio (B.filter (fun l =>
              decide (l ∉ A.filter (fun l' => decide (l' ∈ B)))))) ⟨[], [], []⟩).matched2 := by
          rw [base.2.1]
          exact List.mem_map_of_mem Prod.snd hp'
        exact base.2.2.2.1 p.2 hm
      rcases List.mem_filter.1 h2 with ⟨hB2, hnc⟩
      simp only [decide_eq_true_eq] at hnc
      intro hA2
      exact hnc (List.mem_filter.2 ⟨hA2, by simp [hB2]⟩)

/-- A similarity function used to exercise the loop at concrete inputs:
distinct lines score `0.9`, equal lines score `1`. -/
def ratioW : List Char → List Char → ℚ :=
  fun a b => if a = b then 1 else 0.9

/-- Witness for C4 at a concrete pair. -/
theorem similarity_threshold_boundary_witness :
    (0.85 : ℚ) ≤ ratioW ['a'] ['b'] ∧ ratioW ['a'] ['b'] < 1 ∧ (['a'] : List Char) ≠ ['b'] := by
  have hmem : ((['a'], ['b']) : List Char × List Char)
      ∈ (findSimilarLinesAdvanced ratioW [['a']] [['b']]).1 := by
    have hab : ('a' : Char) ≠ 'b' := by decide
    norm_num [findSimilarLinesAdvanced, simStep, bestCandidate, ratioW, hab]
  exact (similarity_threshold_boundary ratioW).1 [['a']] [['b']] (['a'], ['b']) hmem

/-- C5: the diff output partitions each side.  `|A|` is the number of
common lines plus truly-unique lines of side 1 plus matched pairs, and
symmetrically for `B`; no line appears in more than one of the common
set, the truly-unique set and the matched pairs of its side; no line is
matched in more than one pair. -/
theorem diff_engine_partition (ratio : List Char → List Char → ℚ)
    (A B : List (List Char)) (hA : A.Nodup) (hB : B.Nodup) :
    A.length = (compareDeviceLines ratio A B).common.length
        + (compareDeviceLines ratio A B).tu1.length
        + (compareDeviceLines ratio A B).pairs.length ∧
    B.length = (compareDeviceLines ratio A B).common.length
        + (compareDeviceLines ratio A B).tu2.length
        + (compareDeviceLines ratio A B).pairs.length ∧
    (∀ x ∈ (compareDeviceLines ratio A B).common,
      x ∉ (compareDeviceLines ratio A B).tu1 ∧
      x ∉ (compareDeviceLines ratio A B).pairs.map Prod.fst ∧
      x ∉ (compareDeviceLines ratio A B).tu2 ∧
      x ∉ (compareDeviceLines ratio A B).pairs.map Prod.snd) ∧
    (∀ x ∈ (compareDeviceLines ratio A B).tu1,
      x ∉ (compareDeviceLines ratio A B).pairs.map Prod.fst) ∧
    (∀ x ∈ (compareDeviceLines ratio A B).tu2,
      x ∉ (compareDeviceLines ratio A B).pairs.map Prod.snd) ∧
    ((compareDeviceLines ratio A B).pairs.map Prod.fst).Nodup ∧
    ((compareDeviceLines ratio A B).pairs.map Prod.snd).Nodup := by
  set common := A.filter (fun l => decide (l ∈ B)) with hcom
  set rem1 := A.filter (fun l => decide (l ∉ common)) with hrem1
  set rem2 := B.filter (fun l => decide (l ∉ common)) with hrem2
  set st := rem1.foldl (simStep ratio rem2) ⟨[], [], []⟩ with hst
  have hcdl : compareDeviceLines ratio A B =
      ⟨common, st.pairs, rem1.filter (fun l => decide (l ∉ st.matched1)),
        rem2.filter (fun l => decide (l ∉ st.matched2))⟩ := rfl
  rw [hcdl]
  dsimp only
  have hrem1nd : rem1.Nodup := hA.filter _
  have hrem2nd : rem2.Nodup := hB.filter _
  have hcomnd : common.Nodup := hA.filter _
  have base := simFold_weak ratio rem2 rem1 [] ⟨[], [], []⟩ rfl rfl
    (by simp) (by simp) (by simp)
  have nd := simFold_nodup ratio rem2 rem1 [] ⟨[], [], []⟩ (by simp) (by simp) (by simp)
    (by simp) hrem1nd
  rw [← hst] at base nd
  have hm1eq : st.matched1 = st.pairs.map Prod.fst := base.1
  have hm2eq : st.matched2 = st.pairs.map Prod.snd := base.2.1
  have hm1sub : ∀ x ∈ st.matched1, x ∈ rem1 := fun x hx => by
    simpa using base.2.2.1 x hx
  have hm2sub : ∀ x ∈ st.matched2, x ∈ rem2 := base.2.2.2.1
  have hm1nd : st.matched1.Nodup := nd.2.1
  have hm2nd : st.matched2.Nodup := nd.2.2
  have hmemcom : ∀ x, x ∈ common ↔ x ∈ A ∧ x ∈ B := by
    intro x
    rw [hcom]
    simp [List.mem_filter]
  have hmemrem1 : ∀ x, x ∈ rem1 ↔ x ∈ A ∧ x ∉ common := by
    intro x
    rw [hrem1]
    simp [List.mem_filter]
  have hmemrem2 : ∀ x, x ∈ rem2 ↔ x ∈ B ∧ x ∉ common := by
    intro x
    rw [hrem2]
    simp [List.mem_filter]
  have hAsplit : common.length + rem1.length = A.length := by
    have h0 := length_filter_add_compl (fun l => decide (l ∈ B)) A
    have hcgr : A.filter (fun l => !(decide (l ∈ B))) = rem1 := by
      rw [hrem1]
      refine List.filter_congr ?_
      intro x hx
      by_cases hxB : x ∈ B
      · have hxc : x ∈ common := (hmemcom x).2 ⟨hx, hxB⟩
        simp [hxB, hxc]
      · have hxc : x ∉ common := fun hc => hxB ((hmemcom x).1 hc).2
        simp [hxB, hxc]
    rw [hcgr] at h0
    rw [← hcom] at h0
    exact h0
  have hsplit1 : (rem1.filter (fun x => decide (x ∈ st.matched1))).length
      + (rem1.filter (fun l => decide (l ∉ st.matched1))).length = rem1.length := by
    have h0 := length_filter_add_compl (fun x => decide (x ∈ st.matched1)) rem1
    have hcgr : rem1.filter (fun x => !(decide (x ∈ st.matched1)))
        = rem1.filter (fun l => decide (l ∉ st.matched1)) :=
      List.filter_congr (fun x _ => (decide_not (p := x ∈ st.matched1)).symm)
    rw [hcgr] at h0
    exact h0
  have hm1count : (rem1.filter (fun x => decide (x ∈ st.matched1))).length
      = st.matched1.length :=
    length_filter_mem_of_nodup hrem1nd hm1nd hm1sub
  have hpairs1 : st.matched1.length = st.pairs.length := by
    rw [hm1eq, List.length_map]
  have hBsplit : (B.filter (fun l => decide (l ∈ common))).length + rem2.length
      = B.length := by
    have h0 := length_filter_add_compl (fun l => decide (l ∈ common)) B
    have hcgr : B.filter (fun x => !(decide (x ∈ common)))
        = rem2 := by
      rw [hrem2]
      exact List.filter_congr (fun x _ => (decide_not (p := x ∈ common)).symm)
    rw [hcgr] at h0
    exact h0
  have hcommonB : (B.filter (fun l => decide (l ∈ common))).length = common.length :=
    length_filter_mem_of_nodup hB hcomnd (fun x hx => ((hmemcom x).1 hx).2)
  have hsplit2 : (rem2.filter (fun x => decide (x ∈ st.matched2))).length
      + (rem2.filter (fun l => decide (l ∉ st.matched2))).length = rem2.length := by
    have h0 := length_filter_add_compl (fun x => decide (x ∈ st.matched2)) rem2
    have hcgr : rem2.filter (fun x => !(decide (x ∈ st.matched2)))
        = rem2.filter (fun l => decide (l ∉ st.matched2)) :=
      List.filter_congr (fun x _ => (decide_not (p := x ∈ st.matched2)).symm)
    rw [hcgr] at h0
    exact h0
  have hm2count : (rem2.filter (fun x => decide (x ∈ st.matched2))).length
      = st.matched2.length :=
    length_filter_mem_of_nodup hrem2nd hm2nd hm2sub
  have hpairs2 : st.matched2.length = st.pairs.length := by
    rw [hm2eq, List.length_map]
  refine ⟨by omega, by omega, ?_, ?_, ?_, ?_, ?_⟩
  · intro x hx
    have hxA : x ∈ A := ((hmemcom x).1 hx).1
    have hxB : x ∈ B := ((hmemcom x).1 hx).2
    refine ⟨?_, ?_, ?_, ?_⟩
    · intro htu
      have : x ∈ rem1 := (List.mem_filter.1 htu).1
      exact ((hmemrem1 x).1 this).2 hx
    · intro hmf
      rw [← hm1eq] at hmf
      exact ((hmemrem1 x).1 (hm1sub x hmf)).2 hx
    · intro htu
      have : x ∈ rem2 := (List.mem_filter.1 htu).1
      exact ((hmemrem2 x).1 this).2 hx
    · intro hms
      rw [← hm2eq] at hms
      exact ((hmemrem2 x).1 (hm2sub x hms)).2 hx
  · intro x hx hmf
    rw [← hm1eq] at hmf
    have := (List.mem_filter.1 hx).2
    simp only [decide_eq_true_eq] at this
    exact this hmf
  · intro x hx hms
    rw [← hm2eq] at hms
    have := (List.mem_filter.1 hx).2
    simp only [decide_eq_true_eq] at this
    exact this hms
  · rw [← hm1eq]; exact hm1nd
  · rw [← hm2eq]; exact hm2nd

/-- Witness for C5 on concrete two-line configurations. -/
theorem diff_engine_partition_witness :
    ([['a'], ['c']] : List (List Char)).length
        = (compareDeviceLines ratioW [['a'], ['c']] [['a'], ['d']]).common.length
        + (compareDeviceLines ratioW [['a'], ['c']] [['a'], ['d']]).tu1.length
        + (compareDeviceLines ratioW [['a'], ['c']] [['a'], ['d']]).pairs.length :=
  (diff_engine_partition ratioW [['a'], ['c']] [['a'], ['d']] (by decide) (by decide)).1

/-! ## Orchestration model: tool state, device environments, events -/

/-- Python exception classes distinguished by the model. -/
inductive PyExn
  | attributeError
  | junosExn
  | generic
deriving DecidableEq, Repr

/-- Operations accepted by the CLI (`--operation` choices). -/
inductive Op
  | check
  | commit
  | commitConfirmed
  | rollback
  | compare
deriving DecidableEq, Repr

/-- Outcome every external device-facing call would have for one device:
session establishment, reachability probe, the three configuration reads,
backup write, lock, load, commit-check and commit. -/
structure DeviceEnv where
  connectOk : Bool
  reachable : Bool
  candidateRead : Except PyExn (List (List Char))
  committedRead : Except PyExn (List (List Char))
  currentRead : Except PyExn (List (List Char))
  backupOk : Bool
  lockOk : Bool
  loadOk : Bool
  commitCheckOk : Bool
  commitOk : Bool

/-- Externally visible calls recorded while executing. -/
inductive Ev
  | connectivity (d : List Char)
  | pendingCheck (d : List Char)
  | overlap (d : List Char)
  | backupEv (d : List Char)
  | lockEv (d : List Char)
  | loadEv (d : List Char)
  | commitCheckEv (d : List Char)
  | commitEv (d : List Char)
  | ratioPass
  | normalizePass
deriving DecidableEq, Repr

/-- State of `JunosPushTool` after `__init__`/`_load_config`: credentials
aside, the loader assigns `ignore_patterns` and `device_groups`.  No
constructor or method ever assigns `normalize_patterns`; the absent
attribute is modelled as an `Option` that stays `none`. -/
structure JunosTool where
  ignorePatterns : List (List Char)
  deviceGroups : List (List Char × List (List Char))
  normalizePatterns : Option (List (List Char))

/-- Model of `_load_config`: build the tool state from `config.ini` sections. -/
def loadTool (groups : List (List Char × List (List Char)))
    (ignore : List (List Char)) : JunosTool :=
  { ignorePatterns := ignore, deviceGroups := groups, normalizePatterns := none }

/-- Association lookup for `self.device_groups[group]`. -/
def lookupGroup : List (List Char × List (List Char)) → List Char →
    Option (List (List Char))
  | [], _ => none
  | (k, v) :: rest, g => if k = g then some v else lookupGroup rest g

/-- Model of `_validate_group`: the group must exist and hold exactly 2 devices. -/
def validateGroup (tool : JunosTool) (group : List Char) :
    Except (List Char) (List (List Char)) :=
  match lookupGroup tool.deviceGroups group with
  | none => .error "Group not found".toList
  | some devs =>
    if devs.length ≠ 2 then .error "Group must have exactly 2 devices".toList
    else .ok devs

/-- Model of `_check_pending_config`: read the candidate and committed databases;
with both reads successful and non-empty, report pending lines exactly
when `set(candidate) - set(committed)` is non-empty; any exception
(including a failed session) and any empty read report no pending
configuration. -/
def pendingFrom : Except PyExn (List (List Char)) → Except PyExn (List (List Char)) → Bool
  | .ok cand, .ok comm =>
    if cand ≠ [] ∧ comm ≠ [] then
      decide (cand.filter (fun l => decide (l ∉ comm)) ≠ [])
    else false
  | _, _ => false

def checkPendingConfig (env : DeviceEnv) : Bool :=
  if env.connectOk then pendingFrom env.candidateRead env.committedRead
  else false

/-- Model of `_validate_device_state`: fan `_check_pending_config` across the
devices; fail when any device has pending configuration. -/
def validateDeviceState (devs : List (List Char)) (env : List Char → DeviceEnv) : Bool :=
  (devs.filter (fun d => checkPendingConfig (env d))).isEmpty

/-- Model of `_test_connectivity`: probe every device; all must be reachable. -/
def testConnectivity (devs : List (List Char)) (env : List Char → DeviceEnv) :
    Bool × List Ev :=
  (devs.all (fun d => (env d).reachable), devs.map Ev.connectivity)

def msgBackupFailed : List Char := "Failed to create backup".toList

def msgJunosError : List Char := "Junos error".toList

def msgCheckPassed : List Char := "Configuration check passed".toList

def msgCheckFailed : List Char := "Configuration check failed".toList

def msgCommitted : List Char := "Configuration committed successfully".toList

def msgCommitConfirmed : List Char := "Configuration committed with confirmation".toList

def msgRollbackDone : List Char := "Configuration rollback completed".toList

def msgNoSetCommands : List Char :=
  "No valid set commands found to convert to delete commands".toList

/-- Model of `_push_config_to_device`: open the session, optionally snapshot the
configuration (before any mutating step; a failed snapshot aborts this
device's push), acquire the exclusive lock, then run the operation:
rollback converts the document and loads/commits the conversion, the
other operations load the document and check/commit it.  Junos errors are
caught and reported as that device's failure.  The `compare` branch is
unreachable from `execute` (the source would fall through returning
`None`). -/
def pushConfigToDevice (env : DeviceEnv) (d : List Char) (content : List Char)
    (op : Op) (backup : Bool) : (Bool × List Char) × List Ev :=
  if ¬env.connectOk then ((false, msgJunosError), [])
  else if backup ∧ ¬env.backupOk then
    ((false, msgBackupFailed), if backup then [Ev.backupEv d] else [])
  else if ¬env.lockOk then
    ((false, msgJunosError), (if backup then [Ev.backupEv d] else []) ++ [Ev.lockEv d])
  else if op = .rollback then
    if pyStrip (convertSetToDelete content) = [] then
      ((false, msgNoSetCommands),
        (if backup then [Ev.backupEv d] else []) ++ [Ev.lockEv d])
    else if ¬env.loadOk then
      ((false, msgJunosError),
        (if backup then [Ev.backupEv d] else []) ++ [Ev.lockEv d, Ev.loadEv d])
    else if ¬env.commitOk then
      ((false, msgJunosError),
        (if backup then [Ev.backupEv d] else []) ++ [Ev.lockEv d, Ev.loadEv d, Ev.commitEv d])
    else
      ((true, msgRollbackDone),
        (if backup then [Ev.backupEv d] else []) ++ [Ev.lockEv d, Ev.loadEv d, Ev.commitEv d])
  else if ¬env.loadOk then
    ((false, msgJunosError),
      (if backup then [Ev.backupEv d] else []) ++ [Ev.lockEv d, Ev.loadEv d])
  else
    match op with
    | .check =>
      (if env.commitCheckOk then (true, msgCheckPassed) else (false, msgCheckFailed),
        (if backup then [Ev.backupEv d] else [])
          ++ [Ev.lockEv d, Ev.loadEv d, Ev.commitCheckEv d])
    | .commit =>
      (if env.commitOk then (true, msgCommitted) else (false, msgJunosError),
        (if backup then [Ev.backupEv d] else [])
          ++ [Ev.lockEv d, Ev.loadEv d, Ev.commitEv d])
    | .commitConfirmed =>
      (if env.commitOk then (true, msgCommitConfirmed) else (false, msgJunosError),
        (if backup then [Ev.backupEv d] else [])
          ++ [Ev.lockEv d, Ev.loadEv d, Ev.commitEv d])
    | _ =>
      ((false, []),
        (if backup then [Ev.backupEv d] else []) ++ [Ev.lockEv d, Ev.loadEv d])

/-- Model of `_execute_sequential`: process the devices one at a time, each with its
own session; collect per-device results keyed by device. -/
def executeSequential (devs : List (List Char)) (env : List Char → DeviceEnv)
    (content : List Char) (op : Op) (backup : Bool) :
    List (List Char × (Bool × List Char)) × List Ev :=
  (devs.map (fun d => (d, (pushConfigToDevice (env d) d content op backup).1)),
   (devs.map (fun d => (pushConfigToDevice (env d) d content op backup).2)).flatten)

/-- Model of `_execute_parallel`: one worker per device (at most 2), fully
independent sessions; in the model of pure per-device outcomes it
produces the same per-device results as the sequential mode. -/
def executeParallel (devs : List (List Char)) (env : List Char → DeviceEnv)
    (content : List Char) (op : Op) (backup : Bool) :
    List (List Char × (Bool × List Char)) × List Ev :=
  (devs.map (fun d => (d, (pushConfigToDevice (env d) d content op backup).1)),
   (devs.map (fun d => (pushConfigToDevice (env d) d content op backup).2)).flatten)

/-- Model of `_filter_config_lines`: drop lines containing any ignore pattern. -/
def filterConfigLines (tool : JunosTool) (ls : List (List Char)) : List (List Char) :=
  if tool.ignorePatterns = [] then ls
  else ls.filter (fun l => !(tool.ignorePatterns.any (fun p => hasSub p (pyStrip l))))

/-- The per-device read of the compare operation: strip each line, drop
blanks and comment lines, then apply the ignore filters. -/
def getDeviceConfigLines (tool : JunosTool) (env : DeviceEnv) :
    Except PyExn (List (List Char)) :=
  if ¬env.connectOk then .error .junosExn
  else
    match env.currentRead with
    | .error e => .error e
    | .ok raw =>
      .ok (filterConfigLines tool ((raw.map pyStrip).filter
        (fun l => decide (l ≠ []) && !(hasPre ['#'] l))))

/-- Model of `_compare_device_configs`: read both device configurations (failure of
either read fails the comparison), deduplicate into line sets, run the
exact+similarity diff (`compareDeviceLines` on the deduplicated line
sets; its output feeds only the display) and report success.  The
`ratioPass` event records that the edit-distance similarity pass ran. -/
def compareDeviceConfigs (ratio : List Char → List Char → ℚ) (tool : JunosTool)
    (devs : List (List Char)) (env : List Char → DeviceEnv) : Bool × List Ev :=
  match devs with
  | [d1, d2] =>
    match getDeviceConfigLines tool (env d1), getDeviceConfigLines tool (env d2) with
    | .ok c1, .ok c2 => (true, [Ev.ratioPass])
    | _, _ => (false, [])
  | _ => (false, [])

/-- Model of `_check_existing_config`: intersect the proposed lines with the
device's current configuration; any exception yields `(False, [], [])`. -/
def checkExistingConfig (env : DeviceEnv) (content : List Char) :
    Bool × List (List Char) × List (List Char) :=
  if ¬env.connectOk then (false, [], [])
  else
    match env.currentRead with
    | .error _ => (false, [], [])
    | .ok raw =>
      let currentLines := ((raw.map pyStrip).filter
        (fun l => decide (l ≠ []) && !(hasPre ['#'] l))).dedup
      let proposed := (((splitNl (pyStrip content)).map pyStrip).filter
        (fun l => decide (l ≠ []) && !(hasPre ['#'] l))).dedup
      (decide (proposed.filter (fun l => decide (l ∈ currentLines)) ≠ []),
        proposed.filter (fun l => decide (l ∈ currentLines)),
        proposed.filter (fun l => decide (l ∉ currentLines)))

/-- Model of `_evaluate_config_status`: every branch of the source returns `True`;
the overlap analysis prints but never blocks. -/
def evaluateConfigStatus
    (_statuses : List (List Char × (Bool × List (List Char) × List (List Char))))
    (_op : Op) : Bool :=
  true

/-- Model of `execute`: group validation, then the compare fast path, else document
validation, dry run, connectivity, overlap analysis, the pending-state
gate (skipped for rollback and compare), and the per-device execution
round; overall success requires every device to succeed.  Exceptions from
group validation and document validation are caught and reported as
overall failure. -/
def execute (ratio : List Char → List Char → ℚ) (tool : JunosTool)
    (group : List Char) (configRaw : List Char) (op : Op)
    (dryRun parallel backup : Bool) (env : List Char → DeviceEnv) :
    Bool × List Ev :=
  match validateGroup tool group with
  | .error _ => (false, [])
  | .ok devs =>
    if op = .compare then
      if dryRun then (true, [])
      else
        let conn := testConnectivity devs env
        if ¬conn.1 then (false, conn.2)
        else
          let cmp := compareDeviceConfigs ratio tool devs env
          (cmp.1, conn.2 ++ cmp.2)
    else
      match validateAndCleanConfig configRaw with
      | .error _ => (false, [])
      | .ok content =>
        if dryRun then (true, [])
        else
          let conn := testConnectivity devs env
          if ¬conn.1 then (false, conn.2)
          else
            let statuses := devs.map (fun d => (d, checkExistingConfig (env d) content))
            let ovTrace := devs.map Ev.overlap
            if ¬evaluateConfigStatus statuses op then (false, conn.2 ++ ovTrace)
            else if op ≠ .rollback ∧ op ≠ .compare then
              let pendTrace := devs.map Ev.pendingCheck
              if ¬validateDeviceState devs env then (false, conn.2 ++ ovTrace ++ pendTrace)
              else
                let res := if parallel then executeParallel devs env content op backup
                           else executeSequential devs env content op backup
                (res.1.all (fun r => r.2.1), conn.2 ++ ovTrace ++ pendTrace ++ res.2)
            else
              let res := if parallel then executeParallel devs env content op backup
                         else executeSequential devs env content op backup
              (res.1.all (fun r => r.2.1), conn.2 ++ ovTrace ++ res.2)

/-- Model of `_normalize_config_line`: reads `self.normalize_patterns` — an
`AttributeError` when the attribute was never assigned — and folds the
per-pattern regex substitutions over the line.  The regex engine is
external; `sub` is the substitution a pattern performs on a line. -/
def normalizeConfigLine (sub : List Char → List Char → List Char)
    (tool : JunosTool) (line : List Char) : Except PyExn (List Char) :=
  match tool.normalizePatterns with
  | none => .error .attributeError
  | some pats => .ok (pats.foldl (fun acc p => sub p acc) line)

/-- The dictionary comprehension of `_find_similar_lines`: pair every line
with its normalized form; the first raised exception propagates. -/
def normalizePairs (sub : List Char → List Char → List Char) (tool : JunosTool) :
    List (List Char) → Except PyExn (List (List Char × List Char))
  | [] => .ok []
  | l :: ls =>
    match normalizeConfigLine sub tool l with
    | .error e => .error e
    | .ok n =>
      match normalizePairs sub tool ls with
      | .error e => .error e
      | .ok rest => .ok ((l, n) :: rest)

/-- Model of `_find_similar_lines` (the normalization-based similarity pass): build
both normalized dictionaries, then pair lines with equal normalized forms
but different text (first match wins). -/
def findSimilarLines (sub : List Char → List Char → List Char) (tool : JunosTool)
    (lines1 lines2 : List (List Char)) :
    Except PyExn (List (List Char × List Char) × List (List Char) × List (List Char)) :=
  match normalizePairs sub tool lines1 with
  | .error e => .error e
  | .ok norm1 =>
    match normalizePairs sub tool lines2 with
    | .error e => .error e
    | .ok norm2 =>
      let res := norm1.foldl
        (fun (acc : List (List Char × List Char) × List (List Char) × List (List Char)) p =>
          match norm2.find? (fun q => decide (q.2 = p.2 ∧ p.1 ≠ q.1)) with
          | some q => (acc.1 ++ [(p.1, q.1)], acc.2.1 ++ [p.1], acc.2.2 ++ [q.1])
          | none => acc)
        ([], [], [])
      .ok (res.1, lines1.filter (fun l => decide (l ∉ res.2.1)),
        lines2.filter (fun l => decide (l ∉ res.2.2)))

/-! ## C8: group validation -/

/-- C8: group validation fails when the group is missing or resolves to a
number of devices other than 2, and a failed validation makes `execute`
return failure with no device contacted (empty event trace); a group of
exactly 2 devices is returned and the run proceeds. -/
theorem group_validation (tool : JunosTool) (g : List Char) :
    (lookupGroup tool.deviceGroups g = none →
      ∃ e, validateGroup tool g = .error e) ∧
    (∀ devs, lookupGroup tool.deviceGroups g = some devs → devs.length ≠ 2 →
      ∃ e, validateGroup tool g = .error e) ∧
    (∀ devs, lookupGroup tool.deviceGroups g = some devs → devs.length = 2 →
      validateGroup tool g = .ok devs) ∧
    (∀ e, validateGroup tool g = .error e →
      ∀ ratio raw op dr par bk env,
        execute ratio tool g raw op dr par bk env = (false, [])) := by
  refine ⟨?_, ?_, ?_, ?_⟩
  · intro h
    exact ⟨_, by unfold validateGroup; rw [h]⟩
  · intro devs h hne
    refine ⟨"Group must have exactly 2 devices".toList, ?_⟩
    unfold validateGroup
    rw [h]
    exact if_pos hne
  · intro devs h h2
    unfold validateGroup
    rw [h]
    exact if_neg (by omega : ¬devs.length ≠ 2)
  · intro e he ratio raw op dr par bk env
    unfold execute
    rw [he]

/-- Witness for C8: a two-device group passes, a one-device group and a
missing group fail. -/
theorem group_validation_witness :
    validateGroup (loadTool [("core".toList, ["10.0.0.1".toList, "10.0.0.2".toList]),
        ("solo".toList, ["10.0.0.3".toList])] [])
      "core".toList = .ok ["10.0.0.1".toList, "10.0.0.2".toList] ∧
    (∃ e, validateGroup (loadTool [("core".toList, ["10.0.0.1".toList, "10.0.0.2".toList]),
        ("solo".toList, ["10.0.0.3".toList])] [])
      "solo".toList = .error e) ∧
    (∃ e, validateGroup (loadTool [("core".toList, ["10.0.0.1".toList, "10.0.0.2".toList]),
        ("solo".toList, ["10.0.0.3".toList])] [])
      "edge".toList = .error e) := by
  refine ⟨?_, ?_, ?_⟩
  · exact (group_validation _ _).2.2.1 _ (by decide) (by decide)
  · exact (group_validation _ _).2.1 ["10.0.0.3".toList] (by decide) (by decide)
  · exact (group_validation _ _).1 (by decide)

/-! ## C9: fail-open behaviour of the pending check -/

theorem pendingFrom_ok_ok (cand comm : List (List Char)) :
    pendingFrom (.ok cand) (.ok comm)
      = if cand ≠ [] ∧ comm ≠ [] then
          decide (cand.filter (fun l => decide (l ∉ comm)) ≠ [])
        else false := rfl

theorem checkPendingConfig_true_intro {env : DeviceEnv} {cand comm : List (List Char)}
    (hc : env.connectOk = true) (h1 : env.candidateRead = .ok cand)
    (h2 : env.committedRead = .ok comm) (hn1 : cand ≠ []) (hn2 : comm ≠ [])
    (hd : cand.filter (fun l => decide (l ∉ comm)) ≠ []) :
    checkPendingConfig env = true := by
  unfold checkPendingConfig
  rw [hc, h1, h2, if_pos rfl, pendingFrom_ok_ok, if_pos ⟨hn1, hn2⟩]
  simpa using hd

/-- C9: during the pending check, any exception (failed session or failed
read) and any empty read reports no pending configuration, so the run
proceeds instead of aborting; the candidate-minus-committed difference
decides the outcome only when both reads succeed non-empty. -/
theorem pending_check_fail_open (env : DeviceEnv) :
    (env.connectOk = false → checkPendingConfig env = false) ∧
    (∀ e, env.candidateRead = .error e → checkPendingConfig env = false) ∧
    (∀ e, env.committedRead = .error e → checkPendingConfig env = false) ∧
    (∀ cand comm, env.candidateRead = .ok cand → env.committedRead = .ok comm →
      cand = [] ∨ comm = [] → checkPendingConfig env = false) ∧
    (checkPendingConfig env = true ↔ env.connectOk = true ∧
      ∃ cand comm, env.candidateRead = .ok cand ∧ env.committedRead = .ok comm ∧
        cand ≠ [] ∧ comm ≠ [] ∧ cand.filter (fun l => decide (l ∉ comm)) ≠ []) ∧
    (∀ devs envf, (∀ d ∈ devs, checkPendingConfig (envf d) = false) →
      validateDeviceState devs envf = true) := by
  refine ⟨?_, ?_, ?_, ?_, ?_, ?_⟩
  · intro h
    unfold checkPendingConfig
    rw [h]
    simp
  · intro e h
    unfold checkPendingConfig
    rw [h]
    cases henv : env.connectOk <;> simp [pendingFrom]
  · intro e h
    unfold checkPendingConfig
    rw [h]
    cases henv : env.connectOk <;> cases env.candidateRead <;> simp [pendingFrom]
  · intro cand comm h1 h2 hor
    unfold checkPendingConfig
    rw [h1, h2, pendingFrom_ok_ok]
    have hcond : ¬(cand ≠ [] ∧ comm ≠ []) := by
      rcases hor with rfl | rfl <;> simp
    rw [if_neg hcond]
    simp
  · constructor
    · intro h
      unfold checkPendingConfig at h
      cases henv : env.connectOk
      · rw [henv] at h
        simp at h
      · rw [henv, if_pos rfl] at h
        refine ⟨rfl, ?_⟩
        cases h1 : env.candidateRead with
        | error e => rw [h1] at h; simp [pendingFrom] at h
        | ok cand =>
          cases h2 : env.committedRead with
          | error e => rw [h1, h2] at h; simp [pendingFrom] at h
          | ok comm =>
            rw [h1, h2, pendingFrom_ok_ok] at h
            by_cases hne : cand ≠ [] ∧ comm ≠ []
            · rw [if_pos hne] at h
              exact ⟨cand, comm, rfl, rfl, hne.1, hne.2, by simpa using h⟩
            · rw [if_neg hne] at h
              cases h
    · rintro ⟨hc, cand, comm, h1, h2, hn1, hn2, hd⟩
      exact checkPendingConfig_true_intro hc h1 h2 hn1 hn2 hd
  · intro devs envf h
    unfold validateDeviceState
    have hnil : devs.filter (fun d => checkPendingConfig (envf d)) = [] := by
      rw [List.filter_eq_nil_iff]
      intro d hd
      simp [h d hd]
    rw [hnil]
    rfl

/-- Witness for C9: a device whose committed read is empty while the
candidate read is non-empty is reported as having no pending state. -/
theorem pending_check_fail_open_witness :
    checkPendingConfig
      { connectOk := true, reachable := true,
        candidateRead := .ok ["set x".toList], committedRead := .ok [],
        currentRead := .ok [], backupOk := true, lockOk := true, loadOk := true,
        commitCheckOk := true, commitOk := true } = false :=
  (pending_check_fail_open _).2.2.2.1 ["set x".toList] [] rfl rfl (Or.inr rfl)

/-! ## C6: backup before mutation, per-device isolation -/

theorem push_backup_fail (env : DeviceEnv) (d content : List Char) (op : Op)
    (hc : env.connectOk = true) (hb : env.backupOk = false) :
    pushConfigToDevice env d content op true
      = ((false, msgBackupFailed), [Ev.backupEv d]) := by
  unfold pushConfigToDevice
  rw [if_neg (by simp [hc]), if_pos (by simp [hb])]
  simp

theorem push_backup_head (env : DeviceEnv) (d content : List Char) (op : Op)
    (hc : env.connectOk = true) :
    ∃ rest, (pushConfigToDevice env d content op true).2 = Ev.backupEv d :: rest := by
  unfold pushConfigToDevice
  rw [if_neg (by simp [hc])]
  by_cases hb : env.backupOk
  · rw [if_neg (by simp [hb])]
    by_cases h3 : env.lockOk
    · rw [if_neg (by simp [h3])]
      by_cases hrb : op = .rollback
      · rw [if_pos hrb]
        by_cases h8 : pyStrip (convertSetToDelete content) = []
        · rw [if_pos h8]; exact ⟨_, rfl⟩
        · rw [if_neg h8]
          by_cases h4 : env.loadOk
          · rw [if_neg (by simp [h4])]
            by_cases h6 : env.commitOk
            · rw [if_neg (by simp [h6])]; exact ⟨_, rfl⟩
            · rw [if_pos (by simp [h6])]; exact ⟨_, rfl⟩
          · rw [if_pos (by simp [h4])]; exact ⟨_, rfl⟩
      · rw [if_neg hrb]
        by_cases h4 : env.loadOk
        · rw [if_neg (by simp [h4])]
          cases op with
          | check => exact ⟨_, rfl⟩
          | commit => exact ⟨_, rfl⟩
          | commitConfirmed => exact ⟨_, rfl⟩
          | rollback => exact absurd rfl hrb
          | compare => exact ⟨_, rfl⟩
        · rw [if_pos (by simp [h4])]; exact ⟨_, rfl⟩
    · rw [if_pos (by simp [h3])]; exact ⟨_, rfl⟩
  · rw [if_pos (by simp [hb])]; exact ⟨_, rfl⟩

theorem executeSequential_lookup (devs : List (List Char))
    (env₁ env₂ : List Char → DeviceEnv) (content : List Char) (op : Op) (bk : Bool)
    (d : List Char) (h : env₁ d = env₂ d) :
    (executeSequential devs env₁ content op bk).1.lookup d
      = (executeSequential devs env₂ content op bk).1.lookup d := by
  unfold executeSequential
  induction devs with
  | nil => rfl
  | cons d' ds ih =>
    simp only [List.map_cons, List.lookup_cons]
    by_cases hd : d' = d
    · subst hd
      rw [h]
      simp
    · have hne : (d == d') = false := beq_eq_false_iff_ne.2 (fun hdd => hd hdd.symm)
      rw [hne]
      simpa using ih

/-- C6: with the backup flag set, the snapshot is taken before any lock,
load or commit on the device; if the snapshot fails, that device's push
returns failure with the backup-failure message and no mutating call was
attempted; and each device's result in the sequential round depends only
on that device's own environment, so the other device's outcome is
unaffected. -/
theorem backup_fails_closed (env : DeviceEnv) (d content : List Char) (op : Op) :
    (env.connectOk = true → env.backupOk = false →
      pushConfigToDevice env d content op true
        = ((false, msgBackupFailed), [Ev.backupEv d])) ∧
    (env.connectOk = true →
      ∃ rest, (pushConfigToDevice env d content op true).2 = Ev.backupEv d :: rest) ∧
    (∀ devs (env₁ env₂ : List Char → DeviceEnv) (bk : Bool), env₁ d = env₂ d →
      (executeSequential devs env₁ content op bk).1.lookup d
        = (executeSequential devs env₂ content op bk).1.lookup d) :=
  ⟨fun hc hb => push_backup_fail env d content op hc hb,
   fun hc => push_backup_head env d content op hc,
   fun devs env₁ env₂ bk h => executeSequential_lookup devs env₁ env₂ content op bk d h⟩

/-- Witness for C6: a concrete device whose backup write fails. -/
theorem backup_fails_closed_witness :
    pushConfigToDevice
      { connectOk := true, reachable := true, candidateRead := .ok [],
        committedRead := .ok [], currentRead := .ok [], backupOk := false,
        lockOk := true, loadOk := true, commitCheckOk := true, commitOk := true }
      "10.0.0.1".toList "set system host-name r1".toList .commit true
      = ((false, msgBackupFailed), [Ev.backupEv "10.0.0.1".toList]) :=
  (backup_fails_closed _ _ _ _).1 rfl rfl

/-! ## Trace-shape helpers -/

theorem validateDeviceState_false {devs : List (List Char)} {env : List Char → DeviceEnv}
    (d : List Char) (hd : d ∈ devs) (h : checkPendingConfig (env d) = true) :
    validateDeviceState devs env = false := by
  have hdm : d ∈ devs.filter (fun d' => checkPendingConfig (env d')) :=
    List.mem_filter.2 ⟨hd, h⟩
  unfold validateDeviceState
  cases hfe : (devs.filter (fun d' => checkPendingConfig (env d'))).isEmpty
  · rfl
  · rw [List.isEmpty_iff] at hfe
    rw [hfe] at hdm
    cases hdm

set_option maxHeartbeats 2000000 in
theorem push_trace_sub (env : DeviceEnv) (d content : List Char) (op : Op) (bk : Bool) :
    ∀ ev ∈ (pushConfigToDevice env d content op bk).2,
      ev ∈ [Ev.backupEv d, Ev.lockEv d, Ev.loadEv d, Ev.commitCheckEv d, Ev.commitEv d] := by
  intro ev hev
  have hbk : ∀ ev' ∈ (if bk then [Ev.backupEv d] else ([] : List Ev)),
      ev' ∈ [Ev.backupEv d, Ev.lockEv d, Ev.loadEv d, Ev.commitCheckEv d, Ev.commitEv d] := by
    by_cases h : bk <;> simp [h]
  unfold pushConfigToDevice at hev
  repeat' split at hev
  all_goals
    dsimp only at hev
  all_goals
    simp only [List.mem_append, List.mem_cons, List.not_mem_nil, or_false, false_or] at hev ⊢
  all_goals tauto

theorem compare_trace_events (ratio : List Char → List Char → ℚ) (tool : JunosTool)
    (devs : List (List Char)) (env : List Char → DeviceEnv) :
    ∀ ev ∈ (compareDeviceConfigs ratio tool devs env).2, ev = Ev.ratioPass := by
  intro ev hev
  unfold compareDeviceConfigs at hev
  rcases devs with _ | ⟨d1, rest1⟩
  · simp at hev
  rcases rest1 with _ | ⟨d2, rest2⟩
  · simp at hev
  rcases rest2 with _ | ⟨d3, rest3⟩
  · dsimp only at hev
    cases h1 : getDeviceConfigLines tool (env d1) with
    | error e =>
      rw [h1] at hev
      simp at hev
    | ok c1 =>
      cases h2 : getDeviceConfigLines tool (env d2) with
      | error e =>
        rw [h1, h2] at hev
        simp at hev
      | ok c2 =>
        rw [h1, h2] at hev
        simpa using hev
  · dsimp only at hev
    simp at hev

theorem executeParallel_eq_sequential (devs : List (List Char))
    (env : List Char → DeviceEnv) (content : List Char) (op : Op) (bk : Bool) :
    executeParallel devs env content op bk = executeSequential devs env content op bk := rfl

theorem exec_round_trace_only_push (devs : List (List Char)) (env : List Char → DeviceEnv)
    (content : List Char) (op : Op) (bk : Bool) :
    ∀ ev ∈ (executeSequential devs env content op bk).2,
      ∃ d, ev ∈ [Ev.backupEv d, Ev.lockEv d, Ev.loadEv d, Ev.commitCheckEv d, Ev.commitEv d] := by
  intro ev hev
  unfold executeSequential at hev
  rw [List.mem_flatten] at hev
  rcases hev with ⟨l, hl, hevl⟩
  rcases List.mem_map.1 hl with ⟨d, _, rfl⟩
  exact ⟨d, push_trace_sub (env d) d content op bk ev hevl⟩

theorem exec_round_trace_cases (par : Bool) (devs : List (List Char))
    (env : List Char → DeviceEnv) (content : List Char) (op : Op) (bk : Bool) :
    ∀ ev ∈ ((if par then executeParallel devs env content op bk
        else executeSequential devs env content op bk)).2,
      ∃ d, ev ∈ [Ev.backupEv d, Ev.lockEv d, Ev.loadEv d, Ev.commitCheckEv d, Ev.commitEv d] := by
  intro ev hev
  by_cases hp : par
  · rw [if_pos hp, executeParallel_eq_sequential] at hev
    exact exec_round_trace_only_push devs env content op bk ev hev
  · rw [if_neg hp] at hev
    exact exec_round_trace_only_push devs env content op bk ev hev

theorem execute_trace_events (ratio : List Char → List Char → ℚ) (tool : JunosTool)
    (g raw : List Char) (op : Op) (dr par bk : Bool) (env : List Char → DeviceEnv) :
    ∀ ev ∈ (execute ratio tool g raw op dr par bk env).2,
      (∃ d, ev = Ev.connectivity d ∨ ev = Ev.overlap d ∨ ev = Ev.pendingCheck d ∨
        ev ∈ [Ev.backupEv d, Ev.lockEv d, Ev.loadEv d, Ev.commitCheckEv d, Ev.commitEv d]) ∨
      ev = Ev.ratioPass := by
  intro ev hev
  unfold execute at hev
  cases hvg : validateGroup tool g with
  | error e => rw [hvg] at hev; simp at hev
  | ok devs =>
    rw [hvg] at hev
    dsimp only at hev
    have hconnCase : ev ∈ (testConnectivity devs env).2 →
        (∃ d, ev = Ev.connectivity d ∨ ev = Ev.overlap d ∨ ev = Ev.pendingCheck d ∨
          ev ∈ [Ev.backupEv d, Ev.lockEv d, Ev.loadEv d, Ev.commitCheckEv d, Ev.commitEv d]) ∨
        ev = Ev.ratioPass := by
      intro hm
      rcases List.mem_map.1 (by simpa [testConnectivity] using hm) with ⟨d, _, rfl⟩
      exact Or.inl ⟨d, Or.inl rfl⟩
    have hovCase : ev ∈ devs.map Ev.overlap →
        (∃ d, ev = Ev.connectivity d ∨ ev = Ev.overlap d ∨ ev = Ev.pendingCheck d ∨
          ev ∈ [Ev.backupEv d, Ev.lockEv d, Ev.loadEv d, Ev.commitCheckEv d, Ev.commitEv d]) ∨
        ev = Ev.ratioPass := by
      intro hm
      rcases List.mem_map.1 hm with ⟨d, _, rfl⟩
      exact Or.inl ⟨d, Or.inr (Or.inl rfl)⟩
    have hpendCase : ev ∈ devs.map Ev.pendingCheck →
        (∃ d, ev = Ev.connectivity d ∨ ev = Ev.overlap d ∨ ev = Ev.pendingCheck d ∨
          ev ∈ [Ev.backupEv d, Ev.lockEv d, Ev.loadEv d, Ev.commitCheckEv d, Ev.commitEv d]) ∨
        ev = Ev.ratioPass := by
      intro hm
      rcases List.mem_map.1 hm with ⟨d, _, rfl⟩
      exact Or.inl ⟨d, Or.inr (Or.inr (Or.inl rfl))⟩
    have hpushCase : ∀ (o : Op),
        ev ∈ ((if par then executeParallel devs env (match validateAndCleanConfig raw with
            | .ok c => c | .error _ => []) o bk
          else executeSequential devs env (match validateAndCleanConfig raw with
            | .ok c => c | .error _ => []) o bk)).2 →
        (∃ d, ev = Ev.connectivity d ∨ ev = Ev.overlap d ∨ ev = Ev.pendingCheck d ∨
          ev ∈ [Ev.backupEv d, Ev.lockEv d, Ev.loadEv d, Ev.commitCheckEv d, Ev.commitEv d]) ∨
        ev = Ev.ratioPass := by
      intro o hm
      rcases exec_round_trace_cases par devs env _ o bk ev hm with ⟨d, hd⟩
      exact Or.inl ⟨d, Or.inr (Or.inr (Or.inr hd))⟩
    by_cases hcomp : op = .compare
    · rw [if_pos hcomp] at hev
      by_cases hdr : dr
      · rw [if_pos (by simp [hdr])] at hev
        simp at hev
      · rw [if_neg (by simp [hdr])] at hev
        by_cases hcn : (testConnectivity devs env).1
        · rw [if_neg (by simpa using hcn)] at hev
          rcases List.mem_append.1 hev with hm | hm
          · exact hconnCase hm
          · exact Or.inr (compare_trace_events ratio tool devs env ev hm)
        · rw [if_pos (by simpa using hcn)] at hev
          exact hconnCase hev
    · rw [if_neg hcomp] at hev
      cases hvc : validateAndCleanConfig raw with
      | error e => rw [hvc] at hev; simp at hev
      | ok content =>
        rw [hvc] at hev
        dsimp only at hev
        by_cases hdr : dr
        · rw [if_pos (by simp [hdr])] at hev
          simp at hev
        · rw [if_neg (by simp [hdr])] at hev
          by_cases hcn : (testConnectivity devs env).1
          · rw [if_neg (by simpa using hcn)] at hev
            rw [if_neg (by simp [evaluateConfigStatus])] at hev
            by_cases hro : op ≠ .rollback ∧ op ≠ .compare
            · rw [if_pos hro] at hev
              by_cases hvds : validateDeviceState devs env
              · rw [if_neg (by simpa using hvds)] at hev
                rcases List.mem_append.1 hev with hm | hm
                · rcases List.mem_append.1 hm with hm | hm
                  · rcases List.mem_append.1 hm with hm | hm
                    · exact hconnCase hm
                    · exact hovCase hm
                  · exact hpendCase hm
                · have := hpushCase op (by rw [hvc]; exact hm)
                  exact this
              · rw [if_pos (by simpa using hvds)] at hev
                rcases List.mem_append.1 hev with hm | hm
                · rcases List.mem_append.1 hm with hm | hm
                  · exact hconnCase hm
                  · exact hovCase hm
                · exact hpendCase hm
            · rw [if_neg hro] at hev
              rcases List.mem_append.1 hev with hm | hm
              · rcases List.mem_append.1 hm with hm | hm
                · exact hconnCase hm
                · exact hovCase hm
              · have := hpushCase op (by rw [hvc]; exact hm)
                exact this
          · rw [if_pos (by simpa using hcn)] at hev
            exact hconnCase hev

/-! ## C2: the pending-configuration gate -/

/-- C2 (amended): on a non-dry run of an operation other than rollback
and compare, if some device of the resolved group has both its candidate
and committed reads succeeding with non-empty line lists and a non-empty
candidate-minus-committed set difference, the preflight device-state
check fails and `execute` returns failure with no backup, lock, load,
commit-check or commit performed on any device.  For rollback and
compare the pending check is not performed on any path (no pending-check
event ever appears in the trace). -/
theorem pending_gate (ratio : List Char → List Char → ℚ) (tool : JunosTool)
    (g raw : List Char) (op : Op) (dr par bk : Bool) (env : List Char → DeviceEnv) :
    (op ≠ .rollback → op ≠ .compare → dr = false →
      (∀ devs, validateGroup tool g = .ok devs →
        ∃ d ∈ devs, (env d).connectOk = true ∧ ∃ cand comm,
          (env d).candidateRead = .ok cand ∧ (env d).committedRead = .ok comm ∧
          cand ≠ [] ∧ comm ≠ [] ∧ cand.filter (fun l => decide (l ∉ comm)) ≠ []) →
      (execute ratio tool g raw op dr par bk env).1 = false ∧
      ∀ d, Ev.backupEv d ∉ (execute ratio tool g raw op dr par bk env).2 ∧
        Ev.lockEv d ∉ (execute ratio tool g raw op dr par bk env).2 ∧
        Ev.loadEv d ∉ (execute ratio tool g raw op dr par bk env).2 ∧
        Ev.commitCheckEv d ∉ (execute ratio tool g raw op dr par bk env).2 ∧
        Ev.commitEv d ∉ (execute ratio tool g raw op dr par bk env).2) ∧
    ((op = .rollback ∨ op = .compare) →
      ∀ d, Ev.pendingCheck d ∉ (execute ratio tool g raw op dr par bk env).2) := by
  constructor
  · intro hnr hnc hdr hpend
    subst hdr
    unfold execute
    cases hvg : validateGroup tool g with
    | error e => simp
    | ok devs =>
      dsimp only
      rw [if_neg hnc]
      cases hvc : validateAndCleanConfig raw with
      | error e => simp
      | ok content =>
        dsimp only
        rw [if_neg (by simp)]
        by_cases hcn : (testConnectivity devs env).1
        · rw [if_neg (by simpa using hcn)]
          rw [if_neg (by simp [evaluateConfigStatus])]
          rw [if_pos ⟨hnr, hnc⟩]
          rcases hpend devs hvg with ⟨d0, hd0, hc0, cand, comm, h1, h2, hn1, hn2, hdiff⟩
          have hck : checkPendingConfig (env d0) = true :=
            checkPendingConfig_true_intro hc0 h1 h2 hn1 hn2 hdiff
          have hvds := validateDeviceState_false d0 hd0 hck
          rw [if_pos (by simp [hvds])]
          refine ⟨rfl, ?_⟩
          intro d
          refine ⟨?_, ?_, ?_, ?_, ?_⟩ <;>
            simp [testConnectivity, List.mem_append, List.mem_map]
        · rw [if_pos (by simpa using hcn)]
          refine ⟨rfl, ?_⟩
          intro d
          refine ⟨?_, ?_, ?_, ?_, ?_⟩ <;>
            simp [testConnectivity, List.mem_append, List.mem_map]
  · intro hop d
    unfold execute
    cases hvg : validateGroup tool g with
    | error e => simp
    | ok devs =>
      dsimp only
      rcases hop with rfl | rfl
      · rw [if_neg (by simp)]
        cases hvc : validateAndCleanConfig raw with
        | error e => simp
        | ok content =>
          dsimp only
          by_cases hdr : dr
          · rw [if_pos (by simp [hdr])]
            simp
          · rw [if_neg (by simp [hdr])]
            by_cases hcn : (testConnectivity devs env).1
            · rw [if_neg (by simpa using hcn)]
              rw [if_neg (by simp [evaluateConfigStatus])]
              rw [if_neg (by simp)]
              intro hm
              rcases List.mem_append.1 hm with hm | hm
              · rcases List.mem_append.1 hm with hm | hm
                · simp [testConnectivity] at hm
                · simp at hm
              · rcases exec_round_trace_cases par devs env content .rollback bk _ hm with ⟨d', hd'⟩
                simp at hd'
            · rw [if_pos (by simpa using hcn)]
              simp [testConnectivity]
      · rw [if_pos rfl]
        by_cases hdr : dr
        · rw [if_pos (by simp [hdr])]
          simp
        · rw [if_neg (by simp [hdr])]
          by_cases hcn : (testConnectivity devs env).1
          · rw [if_neg (by simpa using hcn)]
            intro hm
            rcases List.mem_append.1 hm with hm | hm
            · simp [testConnectivity] at hm
            · have := compare_trace_events ratio tool devs env _ hm
              cases this
          · rw [if_pos (by simpa using hcn)]
            simp [testConnectivity]

def cxDevs : List (List Char) := ["10.0.0.1".toList, "10.0.0.2".toList]

def cxTool : JunosTool := loadTool [("core".toList, cxDevs)] []

def cxContent : List Char := "set system host-name r1".toList

/-- A device with uncommitted drift that the check cannot see: non-empty
candidate read, empty committed read. -/
def cxEnvDrift : DeviceEnv :=
  { connectOk := true, reachable := true,
    candidateRead := .ok ["set x".toList], committedRead := .ok [],
    currentRead := .ok [], backupOk := true, lockOk := true, loadOk := true,
    commitCheckOk := true, commitOk := true }

def cxEnv : List Char → DeviceEnv := fun _ => cxEnvDrift

/-- A device with visible pending drift: both reads non-empty, non-empty
difference. -/
def cxEnvPending : DeviceEnv :=
  { connectOk := true, reachable := true,
    candidateRead := .ok ["set x".toList], committedRead := .ok ["set y".toList],
    currentRead := .ok [], backupOk := true, lockOk := true, loadOk := true,
    commitCheckOk := true, commitOk := true }

def cxEnvP : List Char → DeviceEnv := fun _ => cxEnvPending

/-- C2 counterexample: device `10.0.0.1` reads a non-empty candidate line
set and an empty committed line set, so candidate − committed is
non-empty; yet the pending check reports no pending configuration, and a
full commit run proceeds to the push and succeeds. -/
theorem pending_gate_counterexample :
    (cxEnvDrift.candidateRead = .ok ["set x".toList] ∧
      cxEnvDrift.committedRead = .ok [] ∧
      ["set x".toList].filter (fun l => decide (l ∉ ([] : List (List Char)))) ≠ []) ∧
    checkPendingConfig cxEnvDrift = false ∧
    (execute ratioW cxTool "core".toList cxContent .commit false false false cxEnv).1 = true ∧
    Ev.commitEv "10.0.0.1".toList
      ∈ (execute ratioW cxTool "core".toList cxContent .commit false false false cxEnv).2 := by
  refine ⟨⟨rfl, rfl, by decide⟩, by decide, rfl, by decide⟩

/-- Witness for the amended C2 at a concrete pending device. -/
theorem pending_gate_witness :
    (execute ratioW cxTool "core".toList cxContent .commit false false false cxEnvP).1
      = false := by
  refine ((pending_gate ratioW cxTool "core".toList cxContent .commit false false false
    cxEnvP).1 (by decide) (by decide) rfl ?_).1
  intro devs hdevs
  have hvg : validateGroup cxTool "core".toList = Except.ok cxDevs := rfl
  rw [hvg] at hdevs
  injection hdevs with h2
  subst h2
  exact ⟨"10.0.0.1".toList, by decide, rfl, ["set x".toList], ["set y".toList],
    rfl, rfl, by decide, by decide, by decide⟩

/-! ## C10: the normalization pass is dead code -/

/-- C10: `_load_config` never assigns `normalize_patterns`, so reading the
attribute in `_normalize_config_line` raises an attribute error for every
line, the normalization-based similarity pass fails on any pair of line
sets with a non-empty side, and no path of `execute` ever reaches it: the
event trace never contains the normalization-pass marker (only the
edit-distance pass runs for compare). -/
theorem normalize_pass_unreachable :
    (∀ groups ignore, (loadTool groups ignore).normalizePatterns = none) ∧
    (∀ sub tool line, tool.normalizePatterns = none →
      normalizeConfigLine sub tool line = .error .attributeError) ∧
    (∀ sub tool l1 l2, tool.normalizePatterns = none → l1 ≠ [] ∨ l2 ≠ [] →
      findSimilarLines sub tool l1 l2 = .error .attributeError) ∧
    (∀ ratio tool g raw op dr par bk env,
      Ev.normalizePass ∉ (execute ratio tool g raw op dr par bk env).2) := by
  have hnorm : ∀ sub tool line, tool.normalizePatterns = none →
      normalizeConfigLine sub tool line = .error .attributeError := by
    intro sub tool line h
    unfold normalizeConfigLine
    rw [h]
  refine ⟨fun _ _ => rfl, hnorm, ?_, ?_⟩
  · intro sub tool l1 l2 h hne
    have hp : ∀ l : List (List Char), l ≠ [] →
        normalizePairs sub tool l = .error .attributeError := by
      intro l hl
      cases l with
      | nil => exact absurd rfl hl
      | cons x xs =>
        unfold normalizePairs
        rw [hnorm sub tool x h]
    rcases hne with hne | hne
    · unfold findSimilarLines
      rw [hp l1 hne]
    · cases l1 with
      | nil =>
        unfold findSimilarLines
        rw [show normalizePairs sub tool ([] : List (List Char)) = Except.ok [] from rfl]
        dsimp only
        rw [hp l2 hne]
      | cons x xs =>
        unfold findSimilarLines
        rw [hp (x :: xs) (by simp)]
  · intro ratio tool g raw op dr par bk env hm
    rcases execute_trace_events ratio tool g raw op dr par bk env _ hm with ⟨d, hd⟩ | hd
    · rcases hd with hd | hd | hd | hd <;> simp at hd
    · cases hd

/-- Witness for C10 on a freshly-loaded tool and a concrete non-empty pair. -/
theorem normalize_pass_unreachable_witness :
    cxTool.normalizePatterns = none ∧
    normalizeConfigLine (fun _ l => l) cxTool "set x".toList
      = .error .attributeError ∧
    findSimilarLines (fun _ l => l) cxTool ["set x".toList] ["set y".toList]
      = .error .attributeError := by
  refine ⟨normalize_pass_unreachable.1 [("core".toList, cxDevs)] [], ?_, ?_⟩
  · exact normalize_pass_unreachable.2.1 (fun _ l => l) cxTool "set x".toList rfl
  · exact normalize_pass_unreachable.2.2.1 (fun _ l => l) cxTool
      ["set x".toList] ["set y".toList] rfl (Or.inl (by decide))
